import Mathlib

/-!
# Verification of the jipa segment pipeline

Shallow embedding of the core of `cldfbench_jipa.py`: the identifier
encoder `compute_id`, the grapheme normalizer `normalize_grapheme`, the
parenthesis-aware comma splitter `_splitter` used by `read_raw_source`,
the allophone reduction and segment resolution performed inside
`Dataset.cmd_makecldf`, and the value/parameter table assembly.

Strings are modelled as `List Char` (Python strings are sequences of
Unicode code points; a Lean `Char` is a Unicode scalar value).  External
collaborators are parameters:

* `nfc` models `unicodedata.normalize("NFC", ·)`;
* `slugFn` models `slug(unidecode(·))` from `clldutils.misc`/`unidecode`;
* a `Catalog` models the CLTS oracle: `grapheme_map` is
  `clts_jipa.grapheme_map` (`dict.get`, absent-safe) and `bipa` is
  `clts.bipa.__getitem__`, which returns either a recognized sound
  (with a string rendering and a name) or an `UnknownSound`;
* `smap` models the `source_map` dictionary (`dict.__getitem__`,
  raising on a missing key, hence `Option`).

Fallible Python code (`text[0]` on an empty string, a missing dict key)
is modelled with `Option`.
-/

set_option autoImplicit false

/-! ## Identifier encoder (`compute_id`, lines 21–30) -/

/-- The character used for hex digit `n` by Python's `"{0:0{1}X}".format`:
uppercase hexadecimal. -/
def hexChar (n : Nat) : Char :=
  "0123456789ABCDEF".data.getD n '?'

/-- Uppercase hexadecimal digits of `n`, most significant first, no
leading zeros; empty for `0` (the caller pads).  Structural recursion
on a fuel argument (`n` itself suffices, since `n / 16 < n`), so that
the kernel can evaluate it. -/
def toHexF : Nat → Nat → List Char
  | _, 0 => []
  | 0, _ => []
  | fuel + 1, n + 1 => toHexF fuel ((n + 1) / 16) ++ [hexChar ((n + 1) % 16)]

/-- Uppercase hexadecimal digits of `n`, most significant first, no
leading zeros; empty for `0` (the caller pads). -/
def toHex (n : Nat) : List Char :=
  toHexF n n

/-- Python `"{0:0{1}X}".format(n, 4)`: uppercase hex, zero-padded on the
left to a minimum width of 4. -/
def hex4 (n : Nat) : List Char :=
  let h := if n = 0 then ['0'] else toHex n
  List.replicate (4 - h.length) '0' ++ h

/-- The codepoint suffix built by `compute_id`:
`"".join(["u{0:0{1}X}".format(ord(char), 4) for char in text])`. -/
def codepointRepr (text : List Char) : List Char :=
  (text.map (fun c => 'u' :: hex4 c.toNat)).flatten

/-- `compute_id(text)` (lines 21–30): `"%s_%s" % (slug(unidecode(text)),
unicode_repr)`.  The slug part is an external collaborator and is a
parameter `slugFn`. -/
def compute_id (slugFn : List Char → List Char) (text : List Char) : List Char :=
  slugFn text ++ '_' :: codepointRepr text

/-! ## Grapheme normalizer (`normalize_grapheme`, lines 33–46)

Python indexes `text[0]`/`text[-1]`; on an empty string that raises
`IndexError`, modelled as `none`.  The first `if` strips a bounding
`(`…`)` pair, the second — evaluated on the *current* string — strips a
bounding `[`…`]` pair.  Note that after the second strip no further
indexing happens, so `"[]"` yields `""` without error, while `"()"`
makes the second condition index an empty string and fail. -/

def normalize_grapheme (nfc : List Char → List Char) (text : List Char) :
    Option (List Char) :=
  let t := nfc text
  if t.isEmpty then none
  else
    let t1 := if t.head? = some '(' ∧ t.getLast? = some ')' then t.tail.dropLast else t
    if t1.isEmpty then none
    else
      let t2 := if t1.head? = some '[' ∧ t1.getLast? = some ']' then t1.tail.dropLast else t1
      some t2

/-! ## Allophone reducer (`cmd_makecldf` lines 193–199)

`re.sub(r"\([^)]*\)", "", segment)` removes every leftmost,
non-overlapping match of `\([^)]*\)`: an opening parenthesis, a run of
characters containing no `)`, and the first following `)`.  A `(` with
no later `)` matches nothing and survives.  The whole-token check
`segment[0] == "(" and segment[-1] == ")"` indexes the string, so an
empty segment would raise (`none`). -/

/-- Remainder of the list after the first `')'`, if any:
the continuation point of a `\([^)]*\)` match. -/
def splitClose : List Char → Option (List Char)
  | [] => none
  | c :: cs => if c = ')' then some cs else splitClose cs

/-- `re.sub(r"\([^)]*\)", "", s)` with a fuel argument for structural
recursion (the list length suffices, since each step consumes at least
one character): drop every parenthesized sub-span, up to its first
closing parenthesis. -/
def rpF : Nat → List Char → List Char
  | _, [] => []
  | 0, s => s
  | fuel + 1, c :: cs =>
    if c = '(' then
      match splitClose cs with
      | some rest => rpF fuel rest
      | none => c :: cs
    else c :: rpF fuel cs

/-- `re.sub(r"\([^)]*\)", "", s)`: drop every parenthesized sub-span
(up to the first closing parenthesis). -/
def removeParens (s : List Char) : List Char :=
  rpF s.length s

/-- The allophone reduction of `cmd_makecldf` (lines 195–199): a token
wholly wrapped in parentheses is kept unchanged, otherwise embedded
`(...)` spans are removed. -/
def reduceAllophone (s : List Char) : Option (List Char) :=
  match s with
  | [] => none
  | c :: cs =>
    some (if c = '(' ∧ (c :: cs).getLast? = some ')' then c :: cs
          else removeParens (c :: cs))

/-! ## The parenthesis-aware comma splitter (`_splitter`, lines 50–58)

`re.split(",\\s*(?![^()]*\\))", text)`: a comma is a delimiter exactly
when the negative lookahead holds, i.e. when scanning forward from the
comma the first parenthesis character reached is *not* a `)`.  (The
consumed `\s*` contains no parenthesis character and no comma, so it
affects neither the lookahead nor later matches, and any whitespace it
would have consumed is removed by the `item.strip()` that follows.)
Each piece is stripped and empty pieces are discarded. -/

/-- Whitespace for Python's `\s` and `str.strip()` on ASCII text:
space, tab, newline, carriage return, vertical tab, form feed. -/
def pySpace (c : Char) : Bool :=
  c.toNat = 32 || c.toNat = 9 || c.toNat = 10 || c.toNat = 13 ||
  c.toNat = 11 || c.toNat = 12

/-- Python `str.strip()`: drop whitespace from both ends. -/
def pyStrip (s : List Char) : List Char :=
  ((s.dropWhile pySpace).reverse.dropWhile pySpace).reverse

/-- The lookahead `[^()]*\)`: `true` iff the first parenthesis
character in the list is a `)`. -/
def lookaheadCloses : List Char → Bool
  | [] => false
  | c :: cs => if c = ')' then true else if c = '(' then false else lookaheadCloses cs

/-- Position `i` of `s` is a delimiter of `re.split(",\s*(?![^()]*\))", s)`:
a comma whose negative lookahead succeeds. -/
def codeDelim (s : List Char) (i : Nat) : Bool :=
  (s.get? i == some ',') && !(lookaheadCloses (s.drop (i + 1)))

/-- Split a list at the positions where `delim` holds, dropping the
delimiter characters; `i` is the index of the head of the remaining
list, `cur` the (reversed) current piece. -/
def splitGo (delim : Nat → Bool) : List Char → Nat → List Char → List (List Char)
  | [], _, cur => [cur.reverse]
  | c :: cs, i, cur =>
    if delim i then cur.reverse :: splitGo delim cs (i + 1) []
    else splitGo delim cs (i + 1) (c :: cur)

/-- Split `s` at every position satisfying `delim`. -/
def splitBy (delim : Nat → Bool) (s : List Char) : List (List Char) :=
  splitGo delim s 0 []

/-- `_splitter` (lines 50–58): split at the regex delimiters, strip each
piece, discard empty pieces. -/
def pySplitter (s : List Char) : List (List Char) :=
  ((splitBy (codeDelim s) s).map pyStrip).filter (fun t => !t.isEmpty)

/-! ## The splitter the spec describes (§4.3)

"split on commas that are not enclosed within a matching pair of
parentheses".  A matching pair is an `(` at `j` and a `)` at `k > j`
whose interior is properly balanced. -/

/-- Properly balanced parentheses at depth `d`: every `)` closes an
open `(` and the depth returns to zero. -/
def balAux : List Char → Nat → Bool
  | [], d => d == 0
  | c :: cs, d =>
    if c = '(' then balAux cs (d + 1)
    else if c = ')' then (if d == 0 then false else balAux cs (d - 1))
    else balAux cs d

/-- `j` and `k` are the positions of a matching `(`/`)` pair of `s`. -/
def matchingPairB (s : List Char) (j k : Nat) : Bool :=
  decide (j < k) && (s.get? j == some '(') && (s.get? k == some ')') &&
    balAux ((s.take k).drop (j + 1)) 0

/-- Position `i` of `s` lies strictly inside some matching pair. -/
def enclosedB (s : List Char) (i : Nat) : Bool :=
  (List.range s.length).any fun j =>
    (List.range s.length).any fun k =>
      decide (j < i) && decide (i < k) && matchingPairB s j k

/-- Delimiters as the spec words them: commas not enclosed within a
matching pair of parentheses. -/
def specDelim (s : List Char) (i : Nat) : Bool :=
  (s.get? i == some ',') && !(enclosedB s i)

/-- Modelled from the spec (§4.3): the splitter the spec describes,
splitting at exactly the commas not enclosed in a matching pair, then
stripping and discarding empty tokens.  To be compared with
`pySplitter`, the embedding of the source's `_splitter`. -/
def specSplitter (s : List Char) : List (List Char) :=
  ((splitBy (specDelim s) s).map pyStrip).filter (fun t => !t.isEmpty)

/-- No parenthesis character occurs in the list. -/
def parenFree (s : List Char) : Bool :=
  s.all fun c => !(c == '(' || c == ')')

/-- Scan for balanced, non-nested parentheses; `inside` records whether
an open group is pending. -/
def nn : List Char → Bool → Bool
  | [], inside => !inside
  | c :: cs, inside =>
    if c = '(' then !inside && nn cs true
    else if c = ')' then inside && nn cs false
    else nn cs inside

/-- The parentheses of `s` are balanced and never nested: the
documented domain on which the regex's one-level lookahead agrees with
the matching-pair reading of §4.3. -/
def nonNested (s : List Char) : Bool := nn s false

/-! ## The catalog oracle and segment resolution (`cmd_makecldf` 201–223) -/

/-- Result of `clts.bipa[key]`: either an `UnknownSound` or a
recognized sound with a string rendering (`str(sound)`) and a name
(`sound.name`). -/
inductive Sound where
  | unknown : Sound
  | known : (grapheme : List Char) → (name : List Char) → Sound
deriving DecidableEq

/-- The CLTS oracle as used by `cmd_makecldf`: `clts_jipa.grapheme_map`
(a dict, looked up with absent-safe `.get`) and `clts.bipa` (total,
returning `UnknownSound` rather than raising). -/
structure Catalog where
  grapheme_map : List Char → Option (List Char)
  bipa : List Char → Sound

/-- Lines 203–213: normalize, look the raw segment up in the grapheme
map, fall back to the normalized segment, fall back to the empty key;
resolve against `bipa`; if unknown, retry `bipa` at the normalized
string directly. -/
def resolveSound (cat : Catalog) (nfc : List Char → List Char)
    (segment : List Char) : Option Sound :=
  (normalize_grapheme nfc segment).map fun normalized =>
    let key := (cat.grapheme_map segment).getD
      ((cat.grapheme_map normalized).getD [])
    match cat.bipa key with
    | Sound.unknown => cat.bipa normalized
    | s => s

/-- The per-segment tuple appended to `segments` (line 223):
`(par_id, normalized, bipa_grapheme, desc)`. -/
structure Seg4 where
  par_id : List Char
  normalized : List Char
  bipa : List Char
  desc : List Char
deriving DecidableEq

/-- Lines 203–223: resolution of one (already reduced) segment into its
`segments` tuple, branching on the sound obtained at lines 207–213
(`resolveSound`, which normalizes the very same segment). -/
def processSegment (cat : Catalog) (nfc slugFn : List Char → List Char)
    (segment : List Char) : Option Seg4 := do
  let normalized ← normalize_grapheme nfc segment
  let sound ← resolveSound cat nfc segment
  pure (match sound with
    | Sound.unknown =>
      ⟨"UNK_".data ++ compute_id slugFn normalized, normalized, [], []⟩
    | Sound.known g d =>
      ⟨"BIPA_".data ++ compute_id slugFn normalized, normalized, g, d⟩)

/-! ## The pipeline (`cmd_makecldf` lines 183–245) -/

/-- A parsed raw source file, restricted to the fields the segment
pipeline reads. -/
structure RawRecord where
  language_name : List Char
  consonants : List (List Char)
  vowels : List (List Char)

/-- One row of the `ValueTable` as appended at lines 227–238. -/
structure ValueRow where
  id : List Char
  language_id : List Char
  marginal : Bool
  parameter_id : List Char
  value : List Char
  contribution_id : List Char
  source : List (List Char)
  catalog : List Char
deriving DecidableEq

/-- One row of the `ParameterTable` as built at lines 242–245. -/
structure ParamRow where
  ID : List Char
  Name : List Char
  BIPA : List Char
  Description : List Char
deriving DecidableEq

/-- Lines 242–245: the parameter table is built from `set(segments)`,
one row per distinct tuple (iteration order unspecified — a `Finset`). -/
def paramTable (segs : List Seg4) : Finset ParamRow :=
  segs.toFinset.image fun t => ⟨t.par_id, t.normalized, t.bipa, t.desc⟩

/-- Loop body of lines 201–239 over the reduced segments of one record:
resolve each segment, append its tuple and its value row, increment the
counter. -/
def runSegs (cat : Catalog) (nfc slugFn : List Char → List Char)
    (lang_key : List Char) (src : List Char) :
    List (List Char) → Nat → Option (List ValueRow × List Seg4 × Nat)
  | [], counter => some ([], [], counter)
  | seg :: rest, counter => do
    let t ← processSegment cat nfc slugFn seg
    let (vs, ss, c') ← runSegs cat nfc slugFn lang_key src rest (counter + 1)
    pure (⟨(Nat.repr counter).data, lang_key, false, t.par_id, seg,
            lang_key, [src], "jipa".data⟩ :: vs,
          t :: ss, c')

/-- The `all_segments` loop of lines 193–199: reduce every segment of
`consonants ++ vowels` in order. -/
def reduceAll : List (List Char) → Option (List (List Char))
  | [] => some []
  | s :: rest => do
    let r ← reduceAllophone s
    let rs ← reduceAll rest
    pure (r :: rs)

/-- Lines 187–239 for one record: reduce `consonants ++ vowels`
(lines 193–199), then resolve each reduced segment and build its rows.
`smap` is the `source_map` dict (raising lookup). -/
def runRecord (cat : Catalog) (nfc slugFn : List Char → List Char)
    (smap : List Char → Option (List Char)) (r : RawRecord) (counter : Nat) :
    Option (List ValueRow × List Seg4 × Nat) := do
  let all_segments ← reduceAll (r.consonants ++ r.vowels)
  let lang_key := slugFn r.language_name
  let src ← smap lang_key
  runSegs cat nfc slugFn lang_key src all_segments counter

/-- The reduced (`all_segments`) lists of a sequence of records, in
record order: the per-occurrence raw values the pipeline emits. -/
def reduceRecords : List RawRecord → Option (List (List (List Char)))
  | [] => some []
  | r :: rs => do
    let x ← reduceAll (r.consonants ++ r.vowels)
    let xs ← reduceRecords rs
    pure (x :: xs)

/-- The whole source loop (lines 183–239): records in order, one shared
counter starting at the given value. -/
def runRecords (cat : Catalog) (nfc slugFn : List Char → List Char)
    (smap : List Char → Option (List Char)) :
    List RawRecord → Nat → Option (List ValueRow × List Seg4 × Nat)
  | [], counter => some ([], [], counter)
  | r :: rs, counter => do
    let (vs, ss, c') ← runRecord cat nfc slugFn smap r counter
    let (vs', ss', c'') ← runRecords cat nfc slugFn smap rs c'
    pure (vs ++ vs', ss ++ ss', c'')

/-- The core pipeline: `counter = 1`, then process every record;
returns the value rows and the `segments` tuples. -/
def runPipeline (cat : Catalog) (nfc slugFn : List Char → List Char)
    (smap : List Char → Option (List Char)) (records : List RawRecord) :
    Option (List ValueRow × List Seg4) :=
  (runRecords cat nfc slugFn smap records 1).map fun (vs, ss, _) => (vs, ss)

/-! ## Injectivity of the codepoint encoding -/

/-! ## Concrete test fixtures -/

/-- A small concrete catalog: the grapheme map sends `"p"` to key
`"K"`, which the main table resolves. -/
def catW1 : Catalog :=
  ⟨fun s => if s = ['p'] then some ['K'] else none,
   fun k => if k = ['K'] then Sound.known "p".data "voiceless bilabial stop".data
            else Sound.unknown⟩

/-- A concrete catalog mapping two segments with the same normalized
form to two different sounds: `"(p)"` resolves (via key `"KH"`) to an
aspirated stop while `"p"` resolves (via key `"K"`) to a plain one. -/
def catC5 : Catalog :=
  ⟨fun s =>
     if s = "(p)".data then some "KH".data
     else if s = "p".data then some "K".data
     else none,
   fun k =>
     if k = "KH".data then Sound.known "pʰ".data "aspirated".data
     else if k = "K".data then Sound.known "p".data "plain".data
     else Sound.unknown⟩

/-- A catalog exercising the main-table retry: the normalized form
`"p"` hits grapheme-map key `"BAD"`, which the main table does *not*
resolve, while the main table does resolve `"p"` directly. -/
def catR : Catalog :=
  ⟨fun s => if s = ['p'] then some "BAD".data else none,
   fun k => if k = ['p'] then Sound.known "p".data "plain".data
            else Sound.unknown⟩

/-- A constant source map: every language id maps to source `"S"`. -/
def smapS : List Char → Option (List Char) := fun _ => some "S".data

/-- A catalog that resolves every grapheme directly to itself. -/
def cat9 : Catalog := ⟨fun s => some s, fun k => Sound.known k "sound".data⟩

/-- A record with three consonants and three vowels, all distinct. -/
def rec9 : RawRecord :=
  ⟨"L".data, ["p".data, "t".data, "k".data], ["a".data, "i".data, "u".data]⟩

/-- The value rows the pipeline emits for `rec9` under `cat9`. -/
def vals9 : List ValueRow :=
  [⟨"1".data, "L".data, false, "BIPA_p_u0070".data, "p".data, "L".data,
    ["S".data], "jipa".data⟩,
   ⟨"2".data, "L".data, false, "BIPA_t_u0074".data, "t".data, "L".data,
    ["S".data], "jipa".data⟩,
   ⟨"3".data, "L".data, false, "BIPA_k_u006B".data, "k".data, "L".data,
    ["S".data], "jipa".data⟩,
   ⟨"4".data, "L".data, false, "BIPA_a_u0061".data, "a".data, "L".data,
    ["S".data], "jipa".data⟩,
   ⟨"5".data, "L".data, false, "BIPA_i_u0069".data, "i".data, "L".data,
    ["S".data], "jipa".data⟩,
   ⟨"6".data, "L".data, false, "BIPA_u_u0075".data, "u".data, "L".data,
    ["S".data], "jipa".data⟩]

/-- The segment tuples the pipeline records for `rec9` under `cat9`. -/
def segs9 : List Seg4 :=
  [⟨"BIPA_p_u0070".data, "p".data, "p".data, "sound".data⟩,
   ⟨"BIPA_t_u0074".data, "t".data, "t".data, "sound".data⟩,
   ⟨"BIPA_k_u006B".data, "k".data, "k".data, "sound".data⟩,
   ⟨"BIPA_a_u0061".data, "a".data, "a".data, "sound".data⟩,
   ⟨"BIPA_i_u0069".data, "i".data, "i".data, "sound".data⟩,
   ⟨"BIPA_u_u0075".data, "u".data, "u".data, "sound".data⟩]

/-- Value of an uppercase hex digit, inverse to `hexChar`. -/
def hexCharVal (c : Char) : Nat :=
  if c.toNat ≤ 57 then c.toNat - 48 else c.toNat - 55

/-- Base-16 value of a digit list, most significant first. -/
def hexVal (l : List Char) : Nat :=
  l.foldl (fun acc c => 16 * acc + hexCharVal c) 0

/-! ## Basic lemmas about the embedded operations -/

theorem splitClose_length : ∀ (cs rest : List Char),
    splitClose cs = some rest → rest.length < cs.length := by
  intro cs
  induction cs with
  | nil => intro rest h; simp [splitClose] at h
  | cons c cs ih =>
    intro rest h
    simp only [splitClose] at h
    by_cases hc : c = ')'
    · rw [if_pos hc] at h
      injection h with h
      subst h
      exact Nat.lt_succ_self _
    · rw [if_neg hc] at h
      exact Nat.lt_trans (ih rest h) (Nat.lt_succ_self _)

/-- Any sufficient fuel computes the same result as the canonical
`s.length` fuel. -/
theorem rpF_eq : ∀ (fuel : Nat) (s : List Char), s.length ≤ fuel →
    rpF fuel s = rpF s.length s := by
  intro fuel
  induction fuel using Nat.strong_induction_on with
  | _ fuel ih =>
    intro s hs
    rcases s with _ | ⟨c, cs⟩
    · rcases fuel with _ | fuel <;> rfl
    · rcases fuel with _ | fuel
      · exact absurd hs (by simp)
      · show rpF (fuel + 1) (c :: cs) = rpF (cs.length + 1) (c :: cs)
        have hcs : cs.length ≤ fuel := by
          simpa [Nat.succ_le_succ_iff] using hs
        simp only [rpF]
        by_cases hc : c = '('
        · rw [if_pos hc, if_pos hc]
          cases hsc : splitClose cs with
          | none => rfl
          | some rest =>
            have hr : rest.length < cs.length := splitClose_length cs rest hsc
            show rpF fuel rest = rpF cs.length rest
            rw [ih fuel (Nat.lt_succ_self _) rest (by omega),
              ih cs.length (by omega) rest (by omega)]
        · rw [if_neg hc, if_neg hc, ih fuel (Nat.lt_succ_self _) cs hcs]

/-- Unfolding equation of `removeParens` on a non-empty list. -/
theorem removeParens_cons (c : Char) (cs : List Char) :
    removeParens (c :: cs) =
      if c = '(' then
        match splitClose cs with
        | some rest => removeParens rest
        | none => c :: cs
      else c :: removeParens cs := by
  show rpF (cs.length + 1) (c :: cs) = _
  simp only [rpF]
  by_cases hc : c = '('
  · rw [if_pos hc, if_pos hc]
    cases hsc : splitClose cs with
    | none => rfl
    | some rest =>
      exact rpF_eq cs.length rest (Nat.le_of_lt (splitClose_length cs rest hsc))
  · rw [if_neg hc, if_neg hc]
    rfl

theorem hexCharVal_hexChar : ∀ k, k < 16 → hexCharVal (hexChar k) = k := by decide

theorem hexVal_aux_acc : ∀ (l : List Char) (a : Nat),
    l.foldl (fun acc c => 16 * acc + hexCharVal c) a =
      a * 16 ^ l.length + hexVal l := by
  intro l
  induction l with
  | nil => intro a; simp [hexVal]
  | cons c cs ih =>
    intro a
    simp only [List.foldl_cons, hexVal]
    rw [ih (16 * a + hexCharVal c), ih (16 * 0 + hexCharVal c)]
    simp [List.length_cons, Nat.pow_succ]
    ring

theorem hexVal_append (u v : List Char) :
    hexVal (u ++ v) = hexVal u * 16 ^ v.length + hexVal v := by
  simp only [hexVal, List.foldl_append]
  rw [hexVal_aux_acc v (List.foldl (fun acc c => 16 * acc + hexCharVal c) 0 u)]
  rfl

theorem hexVal_toHexF : ∀ fuel n, n ≤ fuel → hexVal (toHexF fuel n) = n := by
  intro fuel
  induction fuel with
  | zero =>
    intro n hn
    have : n = 0 := Nat.le_zero.mp hn
    subst this
    rfl
  | succ fuel ih =>
    intro n hn
    rcases n with _ | m
    · rfl
    · show hexVal (toHexF fuel ((m + 1) / 16) ++ [hexChar ((m + 1) % 16)]) = m + 1
      rw [hexVal_append]
      have hd : (m + 1) / 16 < m + 1 := Nat.div_lt_self (Nat.succ_pos m) (by decide)
      rw [ih ((m + 1) / 16) (by omega)]
      have hm : (m + 1) % 16 < 16 := Nat.mod_lt _ (by decide)
      simp [hexVal, hexCharVal_hexChar ((m + 1) % 16) hm]
      omega

theorem hexVal_toHex (n : Nat) : hexVal (toHex n) = n :=
  hexVal_toHexF n n (Nat.le_refl n)

theorem hexVal_replicate_zero (k : Nat) (l : List Char) :
    hexVal (List.replicate k '0' ++ l) = hexVal l := by
  induction k with
  | zero => rfl
  | succ k ih =>
    simp only [List.replicate_succ, List.cons_append, hexVal, List.foldl_cons]
    have : 16 * 0 + hexCharVal '0' = 0 := by decide
    rw [this]
    exact ih

theorem hexVal_hex4 (n : Nat) : hexVal (hex4 n) = n := by
  unfold hex4
  by_cases h : n = 0
  · simp [h]
    decide
  · simp only [h, if_false]
    rw [hexVal_replicate_zero]
    exact hexVal_toHex n

theorem hex4_injective {a b : Nat} (h : hex4 a = hex4 b) : a = b := by
  have := congrArg hexVal h
  rwa [hexVal_hex4, hexVal_hex4] at this

/-- Characters of `toHex` are hex digits: images of `hexChar` below 16. -/
theorem toHexF_mem : ∀ fuel n c, c ∈ toHexF fuel n → ∃ k, k < 16 ∧ c = hexChar k := by
  intro fuel
  induction fuel with
  | zero =>
    intro n c hc
    rcases n with _ | m <;> exact absurd hc (by simp [toHexF])
  | succ fuel ih =>
    intro n c hc
    rcases n with _ | m
    · exact absurd hc (by simp [toHexF])
    · simp only [toHexF] at hc
      rcases List.mem_append.mp hc with h1 | h2
      · exact ih ((m + 1) / 16) c h1
      · rcases List.mem_singleton.mp h2 with rfl
        exact ⟨(m + 1) % 16, Nat.mod_lt _ (by decide), rfl⟩

/-- Characters of `toHex` are hex digits: images of `hexChar` below 16. -/
theorem toHex_mem (n : Nat) (c : Char) (hc : c ∈ toHex n) :
    ∃ k, k < 16 ∧ c = hexChar k :=
  toHexF_mem n n c hc

theorem hexChar_ne : ∀ k, k < 16 → hexChar k ≠ 'u' ∧ hexChar k ≠ '_' := by decide

/-- No character of `hex4 n` is `'u'` or `'_'`. -/
theorem hex4_mem_ne (n : Nat) (c : Char) (hc : c ∈ hex4 n) :
    c ≠ 'u' ∧ c ≠ '_' := by
  unfold hex4 at hc
  rcases List.mem_append.mp hc with h1 | h2
  · have := List.eq_of_mem_replicate h1
    subst this
    exact ⟨by decide, by decide⟩
  · by_cases h : n = 0
    · simp [h] at h2
      subst h2
      exact ⟨by decide, by decide⟩
    · simp only [h, if_false] at h2
      obtain ⟨k, hk, rfl⟩ := toHex_mem n c h2
      exact hexChar_ne k hk

/-- Split a concatenation whose left parts are `'u'`-free and whose
right parts are empty or start with `'u'`. -/
theorem append_split_ufree :
    ∀ (u1 u2 v1 v2 : List Char), (∀ c ∈ u1, c ≠ 'u') → (∀ c ∈ u2, c ≠ 'u') →
    (v1 = [] ∨ v1.head? = some 'u') → (v2 = [] ∨ v2.head? = some 'u') →
    u1 ++ v1 = u2 ++ v2 → u1 = u2 ∧ v1 = v2 := by
  intro u1
  induction u1 with
  | nil =>
    intro u2 v1 v2 _ hu2 hv1 hv2 heq
    cases u2 with
    | nil => exact ⟨rfl, heq⟩
    | cons y u2' =>
      exfalso
      simp only [List.nil_append, List.cons_append] at heq
      rcases hv1 with h | h
      · rw [h] at heq
        exact List.noConfusion heq.symm  -- [] = y :: _
      · rw [heq] at h
        simp only [List.head?_cons, Option.some.injEq] at h
        exact hu2 y (List.mem_cons_self y u2') h
  | cons x u1' ih =>
    intro u2 v1 v2 hu1 hu2 hv1 hv2 heq
    cases u2 with
    | nil =>
      exfalso
      simp only [List.cons_append, List.nil_append] at heq
      rcases hv2 with h | h
      · rw [h] at heq
        exact List.noConfusion heq
      · rw [← heq] at h
        simp only [List.head?_cons, Option.some.injEq] at h
        exact hu1 x (List.mem_cons_self x u1') h
    | cons y u2' =>
      simp only [List.cons_append, List.cons.injEq] at heq
      obtain ⟨rfl, heq'⟩ := heq
      have := ih u2' v1 v2 (fun c hc => hu1 c (List.mem_cons_of_mem _ hc))
        (fun c hc => hu2 c (List.mem_cons_of_mem _ hc)) hv1 hv2 heq'
      exact ⟨by rw [this.1], this.2⟩

theorem codepointRepr_nil_or_u (xs : List Char) :
    codepointRepr xs = [] ∨ (codepointRepr xs).head? = some 'u' := by
  cases xs with
  | nil => left; rfl
  | cons c cs => right; rfl

theorem codepointRepr_cons (c : Char) (cs : List Char) :
    codepointRepr (c :: cs) = 'u' :: (hex4 c.toNat ++ codepointRepr cs) := by
  simp [codepointRepr]

/-- The codepoint suffix is injective on codepoint sequences. -/
theorem codepointRepr_injective :
    ∀ xs ys : List Char, codepointRepr xs = codepointRepr ys → xs = ys := by
  intro xs
  induction xs with
  | nil =>
    intro ys h
    cases ys with
    | nil => rfl
    | cons d ds =>
      rw [codepointRepr_cons] at h
      exact absurd h (by simp [codepointRepr])
  | cons c cs ih =>
    intro ys h
    cases ys with
    | nil =>
      rw [codepointRepr_cons] at h
      exact absurd h (by simp [codepointRepr])
    | cons d ds =>
      rw [codepointRepr_cons, codepointRepr_cons] at h
      have h' := List.cons.injEq .. ▸ h
      simp only [List.cons.injEq, true_and] at h
      have hsplit := append_split_ufree (hex4 c.toNat) (hex4 d.toNat)
        (codepointRepr cs) (codepointRepr ds)
        (fun x hx => (hex4_mem_ne _ x hx).1) (fun x hx => (hex4_mem_ne _ x hx).1)
        (codepointRepr_nil_or_u cs) (codepointRepr_nil_or_u ds) h
      have hc : c = d := by
        have := hex4_injective hsplit.1
        exact Char.eq_of_val_eq (UInt32.eq_of_toBitVec_eq (BitVec.eq_of_toNat_eq this))
      rw [hc, ih ds hsplit.2]

/-- No character of the codepoint suffix is `'_'`. -/
theorem codepointRepr_no_underscore :
    ∀ (xs : List Char) (c : Char), c ∈ codepointRepr xs → c ≠ '_' := by
  intro xs
  induction xs with
  | nil => intro c hc; exact absurd hc (by simp [codepointRepr])
  | cons x xs ih =>
    intro c hc
    rw [codepointRepr_cons] at hc
    rcases List.mem_cons.mp hc with rfl | hc'
    · decide
    · rcases List.mem_append.mp hc' with h1 | h2
      · exact (hex4_mem_ne _ c h1).2
      · exact ih c h2

/-- Split a concatenation around a separator absent from the right
parts. -/
theorem append_split_sep :
    ∀ (a1 a2 r1 r2 : List Char), (∀ c ∈ r1, c ≠ '_') → (∀ c ∈ r2, c ≠ '_') →
    a1 ++ '_' :: r1 = a2 ++ '_' :: r2 → a1 = a2 ∧ r1 = r2 := by
  intro a1
  induction a1 with
  | nil =>
    intro a2 r1 r2 hr1 hr2 heq
    cases a2 with
    | nil =>
      simp only [List.nil_append, List.cons.injEq] at heq
      exact ⟨rfl, heq.2⟩
    | cons y a2' =>
      exfalso
      simp only [List.nil_append, List.cons_append, List.cons.injEq] at heq
      obtain ⟨rfl, heq'⟩ := heq
      exact hr1 '_' (heq' ▸ List.mem_append_right a2' (List.mem_cons_self _ _)) rfl
  | cons x a1' ih =>
    intro a2 r1 r2 hr1 hr2 heq
    cases a2 with
    | nil =>
      exfalso
      simp only [List.cons_append, List.nil_append, List.cons.injEq] at heq
      obtain ⟨rfl, heq'⟩ := heq
      exact hr2 '_' (heq'.symm ▸ List.mem_append_right a1' (List.mem_cons_self _ _)) rfl
    | cons y a2' =>
      simp only [List.cons_append, List.cons.injEq] at heq
      obtain ⟨rfl, heq'⟩ := heq
      have := ih a2' r1 r2 hr1 hr2 heq'
      exact ⟨by rw [this.1], this.2⟩

/-- `compute_id` is injective for every choice of the external slug
function: the codepoint suffix after the last `'_'` determines the
input. -/
theorem compute_id_injective (slugFn : List Char → List Char)
    (x y : List Char) (h : compute_id slugFn x = compute_id slugFn y) :
    x = y := by
  unfold compute_id at h
  have := append_split_sep (slugFn x) (slugFn y) (codepointRepr x)
    (codepointRepr y) (codepointRepr_no_underscore x)
    (codepointRepr_no_underscore y) h
  exact codepointRepr_injective x y this.2

/-! ## Claim C3: the identifier encoder is injective -/

/-- C3: for any slug function (the external `slug(unidecode(·))`
collaborator) and any two distinct codepoint sequences, `compute_id`
yields distinct identifiers: the codepoint suffix after the final `'_'`
uniquely determines the input even when the slug parts collide. -/
theorem C3_encoder_injective (slugFn : List Char → List Char)
    (x y : List Char) (h : x ≠ y) :
    compute_id slugFn x ≠ compute_id slugFn y := by
  intro heq
  exact h (compute_id_injective slugFn x y heq)

/-- C3 witness: two strings with colliding slugs (a constant slug
function) still receive distinct identifiers. -/
theorem C3_encoder_injective_witness :
    (['a'] : List Char) ≠ ['b'] ∧
      compute_id (fun _ => []) ['a'] ≠ compute_id (fun _ => []) ['b'] :=
  ⟨by decide, C3_encoder_injective (fun _ => []) ['a'] ['b'] (by decide)⟩

/-! ## Claim C2: idempotence of normalization

The claim is false on the code: `normalize_grapheme` strips at most one
`(`…`)` pair and then at most one `[`…`]` pair, in that order, so a
second application can strip again.  `normalize("[(a)]") = "(a)"` but
`normalize("(a)") = "a"`.  (On `"[(a)]"`, `"(a)"` and `"a"` — all
ASCII, NFC-fixed — the `nfc` oracle acts as the identity, so the
identity instantiates it faithfully.) -/

/-- C2 counterexample: normalization is not idempotent at `"[(a)]"`:
the first pass strips the square brackets, leaving `"(a)"`, and the
second pass strips the parentheses. -/
theorem C2_normalize_idempotent_cex :
    (normalize_grapheme (fun s => s) "[(a)]".data).bind
        (normalize_grapheme (fun s => s)) ≠
      normalize_grapheme (fun s => s) "[(a)]".data ∧
    normalize_grapheme (fun s => s) "[(a)]".data = some "(a)".data ∧
    normalize_grapheme (fun s => s) "(a)".data = some "a".data := by
  refine ⟨?_, by decide, by decide⟩
  decide

/-- C2 amended: normalization is idempotent on every input whose
normalized form is non-empty, is a fixed point of NFC, and is not again
bounded by `(`…`)` or by `[`…`]` (a re-strippable output is exactly
what the counterexample exploits). -/
theorem C2_normalize_idempotent (nfc : List Char → List Char)
    (x y : List Char) (hx : normalize_grapheme nfc x = some y)
    (hnfc : nfc y = y)
    (h1 : ¬(y.head? = some '(' ∧ y.getLast? = some ')'))
    (h2 : ¬(y.head? = some '[' ∧ y.getLast? = some ']'))
    (hne : y ≠ []) :
    (normalize_grapheme nfc x).bind (normalize_grapheme nfc) =
      normalize_grapheme nfc x := by
  rw [hx, Option.some_bind]
  simp only [normalize_grapheme, hnfc]
  rw [if_neg (by simpa using hne)]
  simp only [if_neg h1]
  rw [if_neg (by simpa using hne)]
  simp only [if_neg h2]

/-- C2 witness: on `"(a)"` the normalized form `"a"` satisfies all the
side conditions, and a second normalization is a no-op. -/
theorem C2_normalize_idempotent_witness :
    (normalize_grapheme (fun s => s) "(a)".data).bind
        (normalize_grapheme (fun s => s)) =
      normalize_grapheme (fun s => s) "(a)".data :=
  C2_normalize_idempotent (fun s => s) "(a)".data ['a'] (by decide) rfl
    (by decide) (by decide) (by decide)

/-! ## Claim C10: partiality of the normalizer

The claim is wrong about `"[]"`: the square-bracket strip is the last
operation of `normalize_grapheme`, no index follows it, so `"[]"`
returns the empty string rather than failing.  The failures are exactly
the inputs whose NFC form is empty or is exactly `"()"`. -/

/-- C10 counterexample: on `"[]"` (NFC-fixed, so the identity oracle is
faithful) the normalizer does not fail: it returns the empty string. -/
theorem C10_normalize_partiality_cex :
    normalize_grapheme (fun s => s) "[]".data = some [] := by decide

/-- C10 amended: `normalize_grapheme` fails exactly on inputs whose NFC
form is empty (the initial `text[0]`) or is exactly `"()"` (the
paren-strip leaves `""`, which the following bracket check indexes);
an input whose NFC form is `"[]"` instead returns the empty string,
because no check follows the square-bracket strip.  Callers must
establish that the NFC form is non-empty and is not `"()"`. -/
theorem C10_normalize_partiality :
    (∀ (nfc : List Char → List Char) (t : List Char),
       normalize_grapheme nfc t = none ↔ nfc t = [] ∨ nfc t = ['(', ')']) ∧
    (∀ (nfc : List Char → List Char) (t : List Char),
       nfc t = ['[', ']'] → normalize_grapheme nfc t = some []) := by
  constructor
  · intro nfc t
    simp only [normalize_grapheme]
    generalize nfc t = u
    rcases u with _ | ⟨c, cs⟩
    · simp
    · simp only [List.isEmpty_cons, if_false]
      by_cases h1 : (c :: cs).head? = some '(' ∧ (c :: cs).getLast? = some ')'
      · rw [if_pos h1]
        have hc : c = '(' := by
          have := h1.1
          simp only [List.head?_cons, Option.some.injEq] at this
          exact this
        subst hc
        rcases cs with _ | ⟨d, ds⟩
        · exact absurd h1.2 (by decide)
        · rcases ds with _ | ⟨e, es⟩
          · have hd : d = ')' := by
              have := h1.2
              simp only [List.getLast?_cons_cons, List.getLast?_singleton,
                Option.some.injEq] at this
              exact this
            subst hd
            simp
          · constructor
            · intro h
              exfalso
              simp at h
            · intro h
              exfalso
              rcases h with h | h
              · exact List.noConfusion h
              · simp only [List.cons.injEq] at h
                exact List.noConfusion h.2.2
      · rw [if_neg h1]
        simp only [List.isEmpty_cons, if_false]
        constructor
        · intro h
          exact absurd h (by simp)
        · intro h
          rcases h with h | h
          · exact absurd h (by simp)
          · exfalso
            apply h1
            rw [h]
            exact ⟨rfl, rfl⟩
  · intro nfc t h
    simp only [normalize_grapheme, h]
    decide

/-- C10 witness: the amended characterization at concrete inputs:
`"()"` fails, `"[]"` returns the empty string. -/
theorem C10_normalize_partiality_witness :
    normalize_grapheme (fun s => s) ['(', ')'] = none ∧
      normalize_grapheme (fun s => s) ['[', ']'] = some [] :=
  ⟨(C10_normalize_partiality.1 (fun s => s) ['(', ')']).mpr (Or.inr rfl),
   C10_normalize_partiality.2 (fun s => s) ['[', ']'] rfl⟩

/-! ## Claim C8: allophone reduction -/

/-- `splitClose` jumps to the first `')'`: a `')'`-free prefix is
skipped. -/
theorem splitClose_append (b c : List Char) (hb : ∀ ch ∈ b, ch ≠ ')') :
    splitClose (b ++ ')' :: c) = some c := by
  induction b with
  | nil => simp [splitClose]
  | cons x b ih =>
    simp only [List.cons_append, splitClose]
    rw [if_neg (hb x (List.mem_cons_self x b))]
    exact ih fun ch hch => hb ch (List.mem_cons_of_mem x hch)

/-- `removeParens` removes a parenthesized span `(...)`: an `'('`-free
prefix passes through, the span up to its first `')'` is dropped, and
removal continues on the remainder. -/
theorem removeParens_span (a b c : List Char)
    (ha : ∀ ch ∈ a, ch ≠ '(') (hb : ∀ ch ∈ b, ch ≠ ')') :
    removeParens (a ++ '(' :: (b ++ ')' :: c)) = a ++ removeParens c := by
  induction a with
  | nil =>
    rw [List.nil_append, removeParens_cons, if_pos rfl,
      splitClose_append b c hb]
    rfl
  | cons x a ih =>
    rw [List.cons_append, removeParens_cons,
      if_neg (ha x (List.mem_cons_self x a)),
      ih fun ch hch => ha ch (List.mem_cons_of_mem x hch),
      List.cons_append]

/-- C8: a token wholly wrapped in parentheses is returned unchanged;
any other (non-empty) token has its embedded `(...)` spans removed —
each span runs from a `'('` to the first following `')'` — and in
particular `reduce("(ʔ)") = "(ʔ)"` and `reduce("k(ʰ)") = "k"`. -/
theorem C8_allophone_reduction :
    (∀ s : List Char, s.head? = some '(' → s.getLast? = some ')' →
       reduceAllophone s = some s) ∧
    (∀ s : List Char, s ≠ [] →
       ¬(s.head? = some '(' ∧ s.getLast? = some ')') →
       reduceAllophone s = some (removeParens s)) ∧
    (∀ a b c : List Char, (∀ ch ∈ a, ch ≠ '(') → (∀ ch ∈ b, ch ≠ ')') →
       removeParens (a ++ '(' :: (b ++ ')' :: c)) = a ++ removeParens c) ∧
    reduceAllophone "(ʔ)".data = some "(ʔ)".data ∧
    reduceAllophone "k(ʰ)".data = some ['k'] := by
  refine ⟨?_, ?_, removeParens_span, by decide, by decide⟩
  · intro s h1 h2
    rcases s with _ | ⟨c, cs⟩
    · exact absurd h1 (by simp)
    · have hc : c = '(' := by
        simpa using h1
      simp only [reduceAllophone, Option.some.injEq]
      rw [if_pos ⟨hc, h2⟩]
  · intro s hne h12
    rcases s with _ | ⟨c, cs⟩
    · exact absurd rfl hne
    · simp only [reduceAllophone, Option.some.injEq]
      rw [if_neg]
      intro ⟨hc, hl⟩
      exact h12 ⟨by simp [hc], hl⟩

/-- C8 witness: the whole-token branch at `"(x)"` and the span-removal
branch at `"k(h)"`. -/
theorem C8_allophone_reduction_witness :
    reduceAllophone "(x)".data = some "(x)".data ∧
      removeParens "k(h)".data = "k".data ++ removeParens [] :=
  ⟨C8_allophone_reduction.1 "(x)".data (by decide) (by decide),
   C8_allophone_reduction.2.2.1 ['k'] ['h'] [] (by decide) (by decide)⟩

/-! ## Claim C1: resolution fallback order -/

/-- C1: the resolver's strict fallback order.  With the normalized form
`n` of the raw segment in hand: (a) a grapheme-map hit on the raw
segment that resolves wins outright; (b) when the raw segment misses
but `n` hits a resolvable key, resolution succeeds via the normalized
path; (c) when both miss, the empty-string key is used; (d)/(e)/(f)
whenever the main-table lookup of the chosen key is unknown — be the
key a raw-segment hit, a normalized hit after a raw miss, or the
empty-string fallback — the resolver retries the main table at `n`
directly; (g) in full generality, whatever key the grapheme-map
fallback chain produced, an unknown main-table result triggers the
retry at `n`. -/
theorem C1_resolution_fallback (cat : Catalog) (nfc : List Char → List Char)
    (seg n : List Char) (hn : normalize_grapheme nfc seg = some n) :
    (∀ k g d, cat.grapheme_map seg = some k → cat.bipa k = Sound.known g d →
       resolveSound cat nfc seg = some (Sound.known g d)) ∧
    (∀ k g d, cat.grapheme_map seg = none → cat.grapheme_map n = some k →
       cat.bipa k = Sound.known g d →
       resolveSound cat nfc seg = some (Sound.known g d)) ∧
    (∀ g d, cat.grapheme_map seg = none → cat.grapheme_map n = none →
       cat.bipa [] = Sound.known g d →
       resolveSound cat nfc seg = some (Sound.known g d)) ∧
    (∀ k, cat.grapheme_map seg = some k → cat.bipa k = Sound.unknown →
       resolveSound cat nfc seg = some (cat.bipa n)) ∧
    (∀ k, cat.grapheme_map seg = none → cat.grapheme_map n = some k →
       cat.bipa k = Sound.unknown →
       resolveSound cat nfc seg = some (cat.bipa n)) ∧
    (cat.grapheme_map seg = none → cat.grapheme_map n = none →
       cat.bipa [] = Sound.unknown →
       resolveSound cat nfc seg = some (cat.bipa n)) ∧
    (cat.bipa ((cat.grapheme_map seg).getD ((cat.grapheme_map n).getD [])) =
        Sound.unknown →
       resolveSound cat nfc seg = some (cat.bipa n)) := by
  refine ⟨?_, ?_, ?_, ?_, ?_, ?_, ?_⟩
  · intro k g d h1 h2
    simp [resolveSound, hn, h1, h2]
  · intro k g d h1 h2 h3
    simp [resolveSound, hn, h1, h2, h3]
  · intro g d h1 h2 h3
    simp [resolveSound, hn, h1, h2, h3]
  · intro k h1 h2
    simp [resolveSound, hn, h1, h2]
  · intro k h1 h2 h3
    simp [resolveSound, hn, h1, h2, h3]
  · intro h1 h2 h3
    simp [resolveSound, hn, h1, h2, h3]
  · intro h1
    simp [resolveSound, hn, h1]

/-- C1 witness: with `catW1`, the raw segment `"(p)"` misses the
grapheme map, its normalized form `"p"` hits key `"K"`, and resolution
succeeds via the normalized path; with `catR`, the raw segment misses,
the normalized form hits key `"BAD"`, the main table reports unknown
for `"BAD"`, and the retry at the normalized string `"p"` resolves. -/
theorem C1_resolution_fallback_witness :
    resolveSound catW1 (fun s => s) "(p)".data =
      some (Sound.known "p".data "voiceless bilabial stop".data) ∧
    resolveSound catR (fun s => s) "(p)".data =
      some (Sound.known "p".data "plain".data) :=
  ⟨(C1_resolution_fallback catW1 (fun s => s) "(p)".data ['p']
      (by decide)).2.1 ['K'] "p".data "voiceless bilabial stop".data
      (by decide) (by decide) (by decide),
   (C1_resolution_fallback catR (fun s => s) "(p)".data ['p']
      (by decide)).2.2.2.2.1 "BAD".data (by decide) (by decide) (by decide)⟩

/-! ## Claim C4: `parameter_id` is a pure function of the normalized
form and the resolution outcome -/

/-- Characterization of a successful `processSegment`: it normalizes,
and depending on the resolved sound builds the `UNK_` or `BIPA_`
tuple over the normalized form. -/
theorem processSegment_spec (cat : Catalog) (nfc slugFn : List Char → List Char)
    (seg : List Char) (t : Seg4)
    (h : processSegment cat nfc slugFn seg = some t) :
    normalize_grapheme nfc seg = some t.normalized ∧
    ((resolveSound cat nfc seg = some Sound.unknown ∧
        t = ⟨"UNK_".data ++ compute_id slugFn t.normalized,
             t.normalized, [], []⟩) ∨
     (∃ g d, resolveSound cat nfc seg = some (Sound.known g d) ∧
        t = ⟨"BIPA_".data ++ compute_id slugFn t.normalized,
             t.normalized, g, d⟩)) := by
  cases hn : normalize_grapheme nfc seg with
  | none =>
    rw [processSegment, hn] at h
    exact absurd h (by simp)
  | some n =>
    cases hs : resolveSound cat nfc seg with
    | none =>
      rw [resolveSound, hn] at hs
      exact absurd hs (by simp)
    | some sound =>
      rw [processSegment, hn, hs] at h
      simp only [Option.bind_eq_bind, Option.some_bind, Option.pure_def,
        Option.some.injEq] at h
      cases sound with
      | unknown =>
        subst h
        exact ⟨rfl, Or.inl ⟨rfl, rfl⟩⟩
      | known g d =>
        subst h
        exact ⟨rfl, Or.inr ⟨g, d, rfl, rfl⟩⟩

/-- C4: for any two segment occurrences processed in a run (same
catalog, NFC and slug oracles), equal normalized forms and equal
resolution outcomes force equal `parameter_id`s, and the id is the
outcome prefix concatenated with `compute_id` of the normalized
form. -/
theorem C4_parameter_id_pure (cat : Catalog) (nfc slugFn : List Char → List Char)
    (s1 s2 : List Char) (t1 t2 : Seg4)
    (h1 : processSegment cat nfc slugFn s1 = some t1)
    (h2 : processSegment cat nfc slugFn s2 = some t2)
    (hn : t1.normalized = t2.normalized)
    (ho : resolveSound cat nfc s1 = some Sound.unknown ↔
          resolveSound cat nfc s2 = some Sound.unknown) :
    t1.par_id = t2.par_id ∧
    t1.par_id =
      (if resolveSound cat nfc s1 = some Sound.unknown
       then "UNK_".data else "BIPA_".data) ++
        compute_id slugFn t1.normalized := by
  obtain ⟨-, hc1⟩ := processSegment_spec cat nfc slugFn s1 t1 h1
  obtain ⟨-, hc2⟩ := processSegment_spec cat nfc slugFn s2 t2 h2
  rcases hc1 with ⟨hr1, ht1⟩ | ⟨g1, d1, hr1, ht1⟩
  · have hr2 : resolveSound cat nfc s2 = some Sound.unknown := ho.mp hr1
    rcases hc2 with ⟨-, ht2⟩ | ⟨g2, d2, hr2', -⟩
    · constructor
      · rw [ht1, ht2]
        simp [hn]
      · rw [ht1, if_pos hr1]
    · rw [hr2] at hr2'
      exact absurd (Option.some.inj hr2') (by simp)
  · have hr2 : ¬resolveSound cat nfc s2 = some Sound.unknown := by
      intro hu
      have := ho.mpr hu
      rw [hr1] at this
      exact absurd (Option.some.inj this) (by simp)
    rcases hc2 with ⟨hu2, -⟩ | ⟨g2, d2, -, ht2⟩
    · exact absurd hu2 hr2
    · constructor
      · rw [ht1, ht2]
        simp [hn]
      · rw [ht1, if_neg (by rw [hr1]; simp)]

/-- C4 witness: with `catC5`, the occurrences `"(p)"` and `"p"` share
the normalized form `"p"` and both resolve, to *different* sounds, yet
receive the identical `parameter_id` `"BIPA_p_u0070"`. -/
theorem C4_parameter_id_pure_witness :
    processSegment catC5 (fun s => s) (fun s => s) "(p)".data =
        some ⟨"BIPA_p_u0070".data, ['p'], "pʰ".data, "aspirated".data⟩ ∧
    processSegment catC5 (fun s => s) (fun s => s) "p".data =
        some ⟨"BIPA_p_u0070".data, ['p'], "p".data, "plain".data⟩ ∧
    (⟨"BIPA_p_u0070".data, ['p'], "pʰ".data, "aspirated".data⟩ : Seg4).par_id =
      (⟨"BIPA_p_u0070".data, ['p'], "p".data, "plain".data⟩ : Seg4).par_id :=
  ⟨by decide, by decide,
   (C4_parameter_id_pure catC5 (fun s => s) (fun s => s) "(p)".data "p".data
      ⟨"BIPA_p_u0070".data, ['p'], "pʰ".data, "aspirated".data⟩
      ⟨"BIPA_p_u0070".data, ['p'], "p".data, "plain".data⟩
      (by decide) (by decide) rfl (by decide)).1⟩

/-! ## Structure of the pipeline output -/

/-- What one record's segment loop guarantees: the counter advances by
one per occurrence, `Value` is the processed (reduced) segment, ids are
the consecutive decimal renderings of the counter, and every appended
tuple comes from `processSegment`. -/
theorem runSegs_spec (cat : Catalog) (nfc slugFn : List Char → List Char)
    (lang src : List Char) :
    ∀ (segs : List (List Char)) (counter : Nat) (vs : List ValueRow)
      (ss : List Seg4) (c' : Nat),
    runSegs cat nfc slugFn lang src segs counter = some (vs, ss, c') →
    c' = counter + segs.length ∧
    vs.map (fun v => v.value) = segs ∧
    vs.map (fun v => v.id) =
      (List.range segs.length).map (fun i => (Nat.repr (counter + i)).data) ∧
    ss.length = segs.length ∧
    ∀ t ∈ ss, ∃ seg ∈ segs, processSegment cat nfc slugFn seg = some t := by
  intro segs
  induction segs with
  | nil =>
    intro counter vs ss c' h
    simp only [runSegs, Option.some.injEq, Prod.mk.injEq] at h
    obtain ⟨hv, hs, hc⟩ := h
    subst hv; subst hs; subst hc
    refine ⟨by simp, rfl, by simp, rfl, ?_⟩
    intro t ht
    exact absurd ht (by simp)
  | cons seg rest ih =>
    intro counter vs ss c' h
    rw [runSegs] at h
    cases hps : processSegment cat nfc slugFn seg with
    | none => rw [hps] at h; exact absurd h (by simp)
    | some t =>
      rw [hps] at h
      simp only [Option.bind_eq_bind, Option.some_bind] at h
      cases hrs : runSegs cat nfc slugFn lang src rest (counter + 1) with
      | none => rw [hrs] at h; exact absurd h (by simp)
      | some res =>
        obtain ⟨vs', ss', c''⟩ := res
        rw [hrs] at h
        simp only [Option.some_bind, Option.pure_def, Option.some.injEq,
          Prod.mk.injEq] at h
        obtain ⟨rfl, rfl, rfl⟩ := h
        obtain ⟨ihc, ihval, ihid, ihlen, ihmem⟩ := ih (counter + 1) vs' ss' c'' hrs
        refine ⟨?_, ?_, ?_, ?_, ?_⟩
        · rw [ihc, List.length_cons]
          omega
        · simp only [List.map_cons, ihval]
        · rw [List.map_cons, ihid, List.length_cons, List.range_succ_eq_map,
            List.map_cons, List.map_map]
          congr 1
          have : (fun i => (Nat.repr (counter + 1 + i)).data) =
              ((fun i => (Nat.repr (counter + i)).data) ∘ Nat.succ) := by
            funext i
            have : counter + 1 + i = counter + Nat.succ i := by omega
            simp [Function.comp, this]
          rw [this]
        · simp [ihlen]
        · intro t' ht'
          rcases List.mem_cons.mp ht' with rfl | hmem
          · exact ⟨seg, List.mem_cons_self _ _, hps⟩
          · obtain ⟨sg, hsg, hpsg⟩ := ihmem t' hmem
            exact ⟨sg, List.mem_cons_of_mem _ hsg, hpsg⟩

/-- A successful reduction keeps the number of segments. -/
theorem reduceAll_length : ∀ (l : List (List Char)) (res : List (List Char)),
    reduceAll l = some res → res.length = l.length := by
  intro l
  induction l with
  | nil =>
    intro res h
    simp only [reduceAll, Option.some.injEq] at h
    subst h
    rfl
  | cons s rest ih =>
    intro res h
    rw [reduceAll] at h
    cases hr : reduceAllophone s with
    | none => rw [hr] at h; exact absurd h (by simp)
    | some x =>
      rw [hr] at h
      simp only [Option.bind_eq_bind, Option.some_bind] at h
      cases hrs : reduceAll rest with
      | none => rw [hrs] at h; exact absurd h (by simp)
      | some xs =>
        rw [hrs] at h
        simp only [Option.some_bind, Option.pure_def, Option.some.injEq] at h
        subst h
        simp [ih xs hrs]

/-- What one record contributes: its `all_segments` list is the
reduction of `consonants ++ vowels`, and the segment loop runs on it. -/
theorem runRecord_spec (cat : Catalog) (nfc slugFn : List Char → List Char)
    (smap : List Char → Option (List Char)) (r : RawRecord) (counter : Nat)
    (vs : List ValueRow) (ss : List Seg4) (c' : Nat)
    (h : runRecord cat nfc slugFn smap r counter = some (vs, ss, c')) :
    ∃ all_segments, reduceAll (r.consonants ++ r.vowels) = some all_segments ∧
      c' = counter + vs.length ∧
      vs.map (fun v => v.value) = all_segments ∧
      vs.map (fun v => v.id) =
        (List.range vs.length).map (fun i => (Nat.repr (counter + i)).data) ∧
      ss.length = vs.length ∧
      ∀ t ∈ ss, ∃ seg, processSegment cat nfc slugFn seg = some t := by
  rw [runRecord] at h
  cases hra : reduceAll (r.consonants ++ r.vowels) with
  | none => rw [hra] at h; exact absurd h (by simp)
  | some all_segments =>
    rw [hra] at h
    simp only [Option.bind_eq_bind, Option.some_bind] at h
    cases hsm : smap (slugFn r.language_name) with
    | none => rw [hsm] at h; exact absurd h (by simp)
    | some src =>
      rw [hsm] at h
      simp only [Option.some_bind] at h
      obtain ⟨hc, hval, hid, hlen, hmem⟩ :=
        runSegs_spec cat nfc slugFn (slugFn r.language_name) src
          all_segments counter vs ss c' h
      have hvslen : vs.length = all_segments.length := by
        have := congrArg List.length hval
        simpa using this
      refine ⟨all_segments, rfl, by omega, hval, by rw [hvslen, hid], by omega, ?_⟩
      intro t ht
      obtain ⟨sg, _, hpsg⟩ := hmem t ht
      exact ⟨sg, hpsg⟩

/-- Aggregated structure of the whole loop: ids are the consecutive
decimal renderings of the counter, one per value row; tuples come from
`processSegment`; values are the concatenated reduced segments in
record order. -/
theorem runRecords_spec (cat : Catalog) (nfc slugFn : List Char → List Char)
    (smap : List Char → Option (List Char)) :
    ∀ (recs : List RawRecord) (counter : Nat) (vs : List ValueRow)
      (ss : List Seg4) (c' : Nat),
    runRecords cat nfc slugFn smap recs counter = some (vs, ss, c') →
    c' = counter + vs.length ∧
    vs.map (fun v => v.id) =
      (List.range vs.length).map (fun i => (Nat.repr (counter + i)).data) ∧
    ss.length = vs.length ∧
    (∀ t ∈ ss, ∃ seg, processSegment cat nfc slugFn seg = some t) ∧
    ∃ segLists, reduceRecords recs = some segLists ∧
      vs.map (fun v => v.value) = segLists.flatten := by
  intro recs
  induction recs with
  | nil =>
    intro counter vs ss c' h
    simp only [runRecords, Option.some.injEq, Prod.mk.injEq] at h
    obtain ⟨hv, hs, hc⟩ := h
    subst hv; subst hs; subst hc
    exact ⟨by simp, by simp, rfl, fun t ht => absurd ht (by simp),
      [], rfl, rfl⟩
  | cons r rs ih =>
    intro counter vs ss c' h
    rw [runRecords] at h
    cases hr1 : runRecord cat nfc slugFn smap r counter with
    | none => rw [hr1] at h; exact absurd h (by simp)
    | some res1 =>
      obtain ⟨vs1, ss1, c1⟩ := res1
      rw [hr1] at h
      simp only [Option.bind_eq_bind, Option.some_bind] at h
      cases hr2 : runRecords cat nfc slugFn smap rs c1 with
      | none => rw [hr2] at h; exact absurd h (by simp)
      | some res2 =>
        obtain ⟨vs2, ss2, c2⟩ := res2
        rw [hr2] at h
        simp only [Option.some_bind, Option.pure_def, Option.some.injEq,
          Prod.mk.injEq] at h
        obtain ⟨rfl, rfl, rfl⟩ := h
        obtain ⟨all1, hall1, hc1, hval1, hid1, hlen1, hmem1⟩ :=
          runRecord_spec cat nfc slugFn smap r counter vs1 ss1 c1 hr1
        obtain ⟨hc2, hid2, hlen2, hmem2, L2, hL2, hval2⟩ :=
          ih c1 vs2 ss2 c2 hr2
        refine ⟨?_, ?_, ?_, ?_, all1 :: L2, ?_, ?_⟩
        · simp only [List.length_append]
          omega
        · rw [List.map_append, hid1, hid2, List.length_append,
            List.range_add, List.map_append, List.map_map]
          congr 1
          have : ((fun i => (Nat.repr (counter + i)).data) ∘
              fun x => vs1.length + x) =
              (fun i => (Nat.repr (c1 + i)).data) := by
            funext i
            have : counter + (vs1.length + i) = c1 + i := by omega
            simp [Function.comp, this]
          rw [this]
        · simp only [List.length_append]
          omega
        · intro t ht
          rcases List.mem_append.mp ht with h1 | h2
          · exact hmem1 t h1
          · exact hmem2 t h2
        · rw [reduceRecords, hall1]
          simp only [Option.bind_eq_bind, Option.some_bind, hL2,
            Option.pure_def]
        · rw [List.map_append, hval1, hval2, List.flatten_cons]

/-- Structure of a successful pipeline run: the counter starts at 1. -/
theorem runPipeline_spec (cat : Catalog) (nfc slugFn : List Char → List Char)
    (smap : List Char → Option (List Char)) (recs : List RawRecord)
    (values : List ValueRow) (segs : List Seg4)
    (h : runPipeline cat nfc slugFn smap recs = some (values, segs)) :
    values.map (fun v => v.id) =
      (List.range values.length).map (fun i => (Nat.repr (1 + i)).data) ∧
    segs.length = values.length ∧
    (∀ t ∈ segs, ∃ seg, processSegment cat nfc slugFn seg = some t) ∧
    ∃ segLists, reduceRecords recs = some segLists ∧
      values.map (fun v => v.value) = segLists.flatten := by
  rw [runPipeline] at h
  cases hr : runRecords cat nfc slugFn smap recs 1 with
  | none => rw [hr] at h; exact absurd h (by simp)
  | some res =>
    obtain ⟨vs, ss, c'⟩ := res
    rw [hr] at h
    simp only [Option.map_some', Option.some.injEq, Prod.mk.injEq] at h
    obtain ⟨rfl, rfl⟩ := h
    obtain ⟨-, hid, hlen, hmem, hL⟩ :=
      runRecords_spec cat nfc slugFn smap recs 1 vs ss c' hr
    exact ⟨hid, hlen, hmem, hL⟩

/-! ## Claim C6: `raw_value` and the allophone reducer

The claim is false on the code: the value loop (line 201) iterates over
`all_segments`, the *reduced* list built at lines 193–199, and line 233
stores that loop variable as `Value`.  A token with an embedded
annotation such as `"k(ʰ)"` is therefore emitted as `"k"`, not as the
original token. -/

/-- C6 counterexample: the record with the single consonant `"k(ʰ)"`
yields one value row whose `Value` is the reduced `"k"`, not the
original token. -/
theorem C6_raw_value_cex :
    runPipeline catW1 (fun s => s) (fun s => s) smapS
        [⟨"L".data, ["k(ʰ)".data], []⟩] =
      some ([⟨"1".data, "L".data, false, "UNK_k_u006B".data, "k".data,
              "L".data, ["S".data], "jipa".data⟩],
            [⟨"UNK_k_u006B".data, "k".data, [], []⟩]) ∧
    ("k".data : List Char) ≠ "k(ʰ)".data := by
  exact ⟨by decide, by decide⟩

/-- C6 amended: the `Value` field of each value row is the *reduced*
segment (the output of the allophone reducer on the parsed token), in
consonants-then-vowels, record order — not the unreduced original,
which coincides with it only when reduction is the identity. -/
theorem C6_raw_value (cat : Catalog) (nfc slugFn : List Char → List Char)
    (smap : List Char → Option (List Char)) (recs : List RawRecord)
    (values : List ValueRow) (segs : List Seg4)
    (segLists : List (List (List Char)))
    (hrun : runPipeline cat nfc slugFn smap recs = some (values, segs))
    (hred : reduceRecords recs = some segLists) :
    values.map (fun v => v.value) = segLists.flatten := by
  obtain ⟨-, -, -, L, hL, hv⟩ :=
    runPipeline_spec cat nfc slugFn smap recs values segs hrun
  rw [hred] at hL
  rw [hv, Option.some.inj hL]

/-- C6 witness: the amended statement at the concrete `"k(ʰ)"` run. -/
theorem C6_raw_value_witness :
    List.map (fun v => v.value)
        [(⟨"1".data, "L".data, false, "UNK_k_u006B".data, "k".data,
           "L".data, ["S".data], "jipa".data⟩ : ValueRow)] =
      List.flatten [["k".data]] :=
  C6_raw_value catW1 (fun s => s) (fun s => s) smapS
    [⟨"L".data, ["k(ʰ)".data], []⟩]
    [⟨"1".data, "L".data, false, "UNK_k_u006B".data, "k".data,
      "L".data, ["S".data], "jipa".data⟩]
    [⟨"UNK_k_u006B".data, "k".data, [], []⟩]
    [["k".data]] (by decide) (by decide)

/-! ## Claim C9: sequential value-row ids -/

/-- Ids of the emitted value rows are the decimal renderings of
`counterStart, counterStart+1, …`, one per segment occurrence, in
order. -/
theorem pipeline_ids (cat : Catalog) (nfc slugFn : List Char → List Char)
    (smap : List Char → Option (List Char)) (recs : List RawRecord)
    (values : List ValueRow) (segs : List Seg4)
    (hrun : runPipeline cat nfc slugFn smap recs = some (values, segs)) :
    values.map (fun v => v.id) =
      (List.range values.length).map (fun i => (Nat.repr (i + 1)).data) := by
  obtain ⟨hid, -, -, -⟩ :=
    runPipeline_spec cat nfc slugFn smap recs values segs hrun
  rw [hid]
  congr 1
  funext i
  rw [Nat.add_comm]

/-- Inversion of `reduceRecords` on a single record. -/
theorem reduceRecords_single (r : RawRecord) (segLists : List (List (List Char)))
    (h : reduceRecords [r] = some segLists) :
    ∃ all_segments, reduceAll (r.consonants ++ r.vowels) = some all_segments ∧
      segLists = [all_segments] := by
  rw [reduceRecords] at h
  cases hra : reduceAll (r.consonants ++ r.vowels) with
  | none => rw [hra] at h; exact absurd h (by simp)
  | some all_segments =>
    rw [hra] at h
    simp only [reduceRecords, Option.bind_eq_bind, Option.some_bind,
      Option.pure_def, Option.some.injEq] at h
    exact ⟨all_segments, rfl, h.symm⟩

/-- The map from segment tuples to parameter rows is injective. -/
theorem seg4ToRow_injective :
    Function.Injective
      (fun t : Seg4 => (⟨t.par_id, t.normalized, t.bipa, t.desc⟩ : ParamRow)) := by
  intro a b hab
  cases a
  cases b
  simpa using hab

/-- C9: value-row ids come from a single counter starting at 1,
incremented once per segment occurrence across the whole run; a single
record with three consonants and three vowels whose segments all
process successfully yields exactly 6 value rows with ids `"1"`–`"6"`,
and exactly 6 parameter rows when the six normalized forms are
distinct. -/
theorem C9_sequential_ids :
    (∀ (cat : Catalog) (nfc slugFn : List Char → List Char)
       (smap : List Char → Option (List Char)) (recs : List RawRecord)
       (values : List ValueRow) (segs : List Seg4),
       runPipeline cat nfc slugFn smap recs = some (values, segs) →
       values.map (fun v => v.id) =
         (List.range values.length).map (fun i => (Nat.repr (i + 1)).data)) ∧
    (∀ (cat : Catalog) (nfc slugFn : List Char → List Char)
       (smap : List Char → Option (List Char)) (r : RawRecord)
       (values : List ValueRow) (segs : List Seg4),
       r.consonants.length = 3 → r.vowels.length = 3 →
       runPipeline cat nfc slugFn smap [r] = some (values, segs) →
       values.length = 6 ∧
       values.map (fun v => v.id) =
         [['1'], ['2'], ['3'], ['4'], ['5'], ['6']] ∧
       segs.length = 6 ∧
       ((segs.map fun t => t.normalized).Nodup → (paramTable segs).card = 6)) := by
  refine ⟨pipeline_ids, ?_⟩
  intro cat nfc slugFn smap r values segs hc hv hrun
  obtain ⟨-, hslen, -, L, hL, hval⟩ :=
    runPipeline_spec cat nfc slugFn smap [r] values segs hrun
  obtain ⟨all_segments, hall, rfl⟩ := reduceRecords_single r L hL
  have hlen6 : values.length = 6 := by
    have h1 := congrArg List.length hval
    simp only [List.length_map, List.flatten_cons, List.flatten_nil,
      List.append_nil] at h1
    rw [h1, reduceAll_length (r.consonants ++ r.vowels) all_segments hall]
    simp [hc, hv]
  have hids := pipeline_ids cat nfc slugFn smap [r] values segs hrun
  refine ⟨hlen6, ?_, by omega, ?_⟩
  · rw [hids, hlen6]
    decide
  · intro hnodup
    have hnds : segs.Nodup := List.Nodup.of_map _ hnodup
    rw [paramTable, Finset.card_image_of_injective _ seg4ToRow_injective,
      List.toFinset_card_of_nodup hnds]
    omega

/-- C9 witness: the six-segment record `rec9` under the
resolve-directly catalog `cat9` produces ids `"1"`–`"6"` and six
parameter rows. -/
theorem C9_sequential_ids_witness :
    vals9.map (fun v => v.id) = [['1'], ['2'], ['3'], ['4'], ['5'], ['6']] ∧
    (paramTable segs9).card = 6 := by
  have H := C9_sequential_ids.2 cat9 (fun s => s) (fun s => s) smapS rec9
    vals9 segs9 (by decide) (by decide) (by decide)
  exact ⟨H.2.1, H.2.2.2 (by decide)⟩

/-! ## Claim C5: distinct parameter rows and their ids

The claim as stated is false: the catalog oracle may map two raw
segments with the same normalized form (e.g. `"p"` and `"(p)"`) to
*different* sounds, producing two distinct tuples that share the
`parameter_id` (which depends only on the normalized form and the
outcome) but differ in grapheme/description — hence two distinct
parameter rows with the same id. -/

/-- Every recorded tuple's id is an outcome prefix on `compute_id` of
its normalized form. -/
theorem seg_parId_form (cat : Catalog) (nfc slugFn : List Char → List Char)
    (t : Seg4) (h : ∃ seg, processSegment cat nfc slugFn seg = some t) :
    t.par_id = "UNK_".data ++ compute_id slugFn t.normalized ∨
    t.par_id = "BIPA_".data ++ compute_id slugFn t.normalized := by
  obtain ⟨seg, hps⟩ := h
  obtain ⟨-, hc⟩ := processSegment_spec cat nfc slugFn seg t hps
  rcases hc with ⟨-, ht⟩ | ⟨g, d, -, ht⟩
  · left
    rw [ht]
  · right
    rw [ht]

/-- Equal ids force equal normalized forms: the prefixes `"UNK_"` and
`"BIPA_"` are distinguishable and `compute_id` is injective. -/
theorem parId_eq_normalized (slugFn : List Char → List Char) (t1 t2 : Seg4)
    (h1 : t1.par_id = "UNK_".data ++ compute_id slugFn t1.normalized ∨
          t1.par_id = "BIPA_".data ++ compute_id slugFn t1.normalized)
    (h2 : t2.par_id = "UNK_".data ++ compute_id slugFn t2.normalized ∨
          t2.par_id = "BIPA_".data ++ compute_id slugFn t2.normalized)
    (h : t1.par_id = t2.par_id) : t1.normalized = t2.normalized := by
  rcases h1 with ha | ha <;> rcases h2 with hb | hb <;> rw [ha, hb] at h
  · exact compute_id_injective slugFn _ _ (List.append_cancel_left h)
  · exfalso
    have h' : 'U' :: ("NK_".data ++ compute_id slugFn t1.normalized) =
        'B' :: ("IPA_".data ++ compute_id slugFn t2.normalized) := h
    injection h' with hU _
    exact absurd hU (by decide)
  · exfalso
    have h' : 'B' :: ("IPA_".data ++ compute_id slugFn t1.normalized) =
        'U' :: ("NK_".data ++ compute_id slugFn t2.normalized) := h
    injection h' with hU _
    exact absurd hU (by decide)
  · exact compute_id_injective slugFn _ _ (List.append_cancel_left h)

/-- C5 amended: in every pipeline run, two parameter rows with the same
id always agree on `Name` (the normalized form); and the ids are
pairwise distinct across distinct rows *provided* the run resolved
equal normalized forms to equal grapheme/description pairs — without
that proviso distinct rows can share an id, differing only in
grapheme/description. -/
theorem C5_param_ids (cat : Catalog) (nfc slugFn : List Char → List Char)
    (smap : List Char → Option (List Char)) (recs : List RawRecord)
    (values : List ValueRow) (segs : List Seg4)
    (hrun : runPipeline cat nfc slugFn smap recs = some (values, segs)) :
    (∀ r1 ∈ paramTable segs, ∀ r2 ∈ paramTable segs, r1.ID = r2.ID →
       r1.Name = r2.Name) ∧
    ((∀ t1 ∈ segs, ∀ t2 ∈ segs, t1.normalized = t2.normalized →
        t1.bipa = t2.bipa ∧ t1.desc = t2.desc) →
      ∀ r1 ∈ paramTable segs, ∀ r2 ∈ paramTable segs, r1 ≠ r2 →
        r1.ID ≠ r2.ID) := by
  obtain ⟨-, -, hmem, -⟩ :=
    runPipeline_spec cat nfc slugFn smap recs values segs hrun
  constructor
  · intro r1 hr1 r2 hr2 hid
    obtain ⟨t1, ht1, rfl⟩ := Finset.mem_image.mp hr1
    obtain ⟨t2, ht2, rfl⟩ := Finset.mem_image.mp hr2
    have hm1 := List.mem_toFinset.mp ht1
    have hm2 := List.mem_toFinset.mp ht2
    exact parId_eq_normalized slugFn t1 t2
      (seg_parId_form cat nfc slugFn t1 (hmem t1 hm1))
      (seg_parId_form cat nfc slugFn t2 (hmem t2 hm2)) hid
  · intro H r1 hr1 r2 hr2 hne hid
    obtain ⟨t1, ht1, rfl⟩ := Finset.mem_image.mp hr1
    obtain ⟨t2, ht2, rfl⟩ := Finset.mem_image.mp hr2
    have hm1 := List.mem_toFinset.mp ht1
    have hm2 := List.mem_toFinset.mp ht2
    have hnorm : t1.normalized = t2.normalized :=
      parId_eq_normalized slugFn t1 t2
        (seg_parId_form cat nfc slugFn t1 (hmem t1 hm1))
        (seg_parId_form cat nfc slugFn t2 (hmem t2 hm2)) hid
    obtain ⟨hbipa, hdesc⟩ := H t1 hm1 t2 hm2 hnorm
    apply hne
    have hpar : t1.par_id = t2.par_id := hid
    rw [hpar, hnorm, hbipa, hdesc]

/-- C5 counterexample: with `catC5` (segments `"p"` and `"(p)"` both
normalize to `"p"` but resolve to different sounds) the run's parameter
table contains two distinct rows with the identical id
`"BIPA_p_u0070"`. -/
theorem C5_param_ids_cex :
    runPipeline catC5 (fun s => s) (fun s => s) smapS
        [⟨"lang".data, ["p".data, "(p)".data], []⟩] =
      some ([⟨"1".data, "lang".data, false, "BIPA_p_u0070".data, "p".data,
              "lang".data, ["S".data], "jipa".data⟩,
             ⟨"2".data, "lang".data, false, "BIPA_p_u0070".data, "(p)".data,
              "lang".data, ["S".data], "jipa".data⟩],
            [⟨"BIPA_p_u0070".data, "p".data, "p".data, "plain".data⟩,
             ⟨"BIPA_p_u0070".data, "p".data, "pʰ".data, "aspirated".data⟩]) ∧
    (⟨"BIPA_p_u0070".data, "p".data, "p".data, "plain".data⟩ : ParamRow) ∈
      paramTable [⟨"BIPA_p_u0070".data, "p".data, "p".data, "plain".data⟩,
                  ⟨"BIPA_p_u0070".data, "p".data, "pʰ".data, "aspirated".data⟩] ∧
    (⟨"BIPA_p_u0070".data, "p".data, "pʰ".data, "aspirated".data⟩ : ParamRow) ∈
      paramTable [⟨"BIPA_p_u0070".data, "p".data, "p".data, "plain".data⟩,
                  ⟨"BIPA_p_u0070".data, "p".data, "pʰ".data, "aspirated".data⟩] ∧
    (⟨"BIPA_p_u0070".data, "p".data, "p".data, "plain".data⟩ : ParamRow) ≠
      ⟨"BIPA_p_u0070".data, "p".data, "pʰ".data, "aspirated".data⟩ ∧
    (⟨"BIPA_p_u0070".data, "p".data, "p".data, "plain".data⟩ : ParamRow).ID =
      (⟨"BIPA_p_u0070".data, "p".data, "pʰ".data, "aspirated".data⟩ : ParamRow).ID := by
  exact ⟨by decide, by decide, by decide, by decide, by decide⟩

/-- C5 witness: a run (under `catW1`) in which equal normalized forms
do resolve identically: its two distinct parameter rows have distinct
ids. -/
theorem C5_param_ids_witness :
    (⟨"BIPA_p_u0070".data, "p".data, "p".data,
      "voiceless bilabial stop".data⟩ : ParamRow) ∈
      paramTable [⟨"BIPA_p_u0070".data, "p".data, "p".data,
                   "voiceless bilabial stop".data⟩,
                  ⟨"UNK_a_u0061".data, "a".data, [], []⟩] ∧
    (⟨"UNK_a_u0061".data, "a".data, [], []⟩ : ParamRow) ∈
      paramTable [⟨"BIPA_p_u0070".data, "p".data, "p".data,
                   "voiceless bilabial stop".data⟩,
                  ⟨"UNK_a_u0061".data, "a".data, [], []⟩] ∧
    (⟨"BIPA_p_u0070".data, "p".data, "p".data,
      "voiceless bilabial stop".data⟩ : ParamRow).ID ≠
      (⟨"UNK_a_u0061".data, "a".data, [], []⟩ : ParamRow).ID := by
  refine ⟨by decide, by decide, ?_⟩
  exact (C5_param_ids catW1 (fun s => s) (fun s => s) smapS
      [⟨"L".data, ["p".data, "a".data], []⟩]
      [⟨"1".data, "L".data, false, "BIPA_p_u0070".data, "p".data, "L".data,
        ["S".data], "jipa".data⟩,
       ⟨"2".data, "L".data, false, "UNK_a_u0061".data, "a".data, "L".data,
        ["S".data], "jipa".data⟩]
      [⟨"BIPA_p_u0070".data, "p".data, "p".data,
        "voiceless bilabial stop".data⟩,
       ⟨"UNK_a_u0061".data, "a".data, [], []⟩]
      (by decide)).2 (by decide) _ (by decide) _ (by decide) (by decide)

/-! ## Claim C7: the comma splitter versus the spec's enclosure rule -/

/-- The splitter consults the delimiter predicate only at positions
covered by the remaining list. -/
theorem splitGo_congr (d1 d2 : Nat → Bool) :
    ∀ (rest : List Char) (i : Nat) (cur : List Char),
    (∀ off, off < rest.length → d1 (i + off) = d2 (i + off)) →
    splitGo d1 rest i cur = splitGo d2 rest i cur := by
  intro rest
  induction rest with
  | nil => intro i cur _; rfl
  | cons c cs ih =>
    intro i cur h
    have h0 : d1 i = d2 i := by
      have := h 0 (by simp)
      simpa using this
    have hrec : ∀ off, off < cs.length → d1 (i + 1 + off) = d2 (i + 1 + off) := by
      intro off hoff
      have := h (off + 1) (by simp; omega)
      rwa [show i + (off + 1) = i + 1 + off by omega] at this
    simp only [splitGo, h0]
    by_cases hd : d2 i
    · rw [if_pos hd, if_pos hd, ih (i + 1) [] hrec]
    · rw [if_neg hd, if_neg hd, ih (i + 1) (c :: cur) hrec]

/-- Unpacking `enclosedB`. -/
theorem enclosedB_iff (s : List Char) (i : Nat) :
    enclosedB s i = true ↔
      ∃ j k, j < i ∧ i < k ∧ k < s.length ∧ matchingPairB s j k = true := by
  constructor
  · intro h
    rw [enclosedB, List.any_eq_true] at h
    obtain ⟨j, hj, hjk⟩ := h
    rw [List.any_eq_true] at hjk
    obtain ⟨k, hk, hcond⟩ := hjk
    simp only [Bool.and_eq_true, decide_eq_true_eq] at hcond
    exact ⟨j, k, hcond.1.1, hcond.1.2, List.mem_range.mp hk, hcond.2⟩
  · intro ⟨j, k, hji, hik, hk, hm⟩
    rw [enclosedB, List.any_eq_true]
    have hjk : j < k := by
      rw [matchingPairB] at hm
      simp only [Bool.and_eq_true, decide_eq_true_eq] at hm
      exact hm.1.1.1
    refine ⟨j, List.mem_range.mpr (by omega), ?_⟩
    rw [List.any_eq_true]
    refine ⟨k, List.mem_range.mpr hk, ?_⟩
    simp only [Bool.and_eq_true, decide_eq_true_eq]
    exact ⟨⟨hji, hik⟩, hm⟩

theorem parenFree_not_open {s : List Char} (h : parenFree s = true)
    {c : Char} (hc : c ∈ s) : c ≠ '(' ∧ c ≠ ')' := by
  rw [parenFree, List.all_eq_true] at h
  have := h c hc
  simp only [Bool.not_eq_true', Bool.or_eq_false_iff, beq_eq_false_iff_ne,
    ne_eq] at this
  exact this

theorem parenFree_cons {c : Char} {s : List Char} :
    parenFree (c :: s) = true ↔ (c ≠ '(' ∧ c ≠ ')') ∧ parenFree s = true := by
  rw [parenFree, List.all_cons, Bool.and_eq_true]
  constructor
  · intro ⟨h1, h2⟩
    refine ⟨?_, h2⟩
    simp only [Bool.not_eq_true', Bool.or_eq_false_iff, beq_eq_false_iff_ne,
      ne_eq] at h1
    exact h1
  · intro ⟨h1, h2⟩
    refine ⟨?_, h2⟩
    simp only [Bool.not_eq_true', Bool.or_eq_false_iff, beq_eq_false_iff_ne,
      ne_eq]
    exact h1

/-- No parenthesis character: the lookahead fails. -/
theorem lookahead_parenFree {l : List Char} (h : parenFree l = true) :
    lookaheadCloses l = false := by
  induction l with
  | nil => rfl
  | cons c cs ih =>
    obtain ⟨⟨h1, h2⟩, h3⟩ := parenFree_cons.mp h
    rw [lookaheadCloses, if_neg h2, if_neg h1]
    exact ih h3

/-- The first parenthesis character is an `'('`: the lookahead fails. -/
theorem lookahead_append_open {a : List Char} (rest : List Char)
    (ha : parenFree a = true) :
    lookaheadCloses (a ++ '(' :: rest) = false := by
  induction a with
  | nil => rfl
  | cons c cs ih =>
    obtain ⟨⟨h1, h2⟩, h3⟩ := parenFree_cons.mp ha
    rw [List.cons_append, lookaheadCloses, if_neg h2, if_neg h1]
    exact ih h3

/-- The first parenthesis character is a `')'`: the lookahead holds. -/
theorem lookahead_append_close {b : List Char} (rest : List Char)
    (hb : parenFree b = true) :
    lookaheadCloses (b ++ ')' :: rest) = true := by
  induction b with
  | nil => rfl
  | cons c cs ih =>
    obtain ⟨⟨h1, h2⟩, h3⟩ := parenFree_cons.mp hb
    rw [List.cons_append, lookaheadCloses, if_neg h2, if_neg h1]
    exact ih h3

/-- `balAux` skips parenthesis-free prefixes. -/
theorem balAux_parenFree_append {u : List Char} (v : List Char) (d : Nat)
    (hu : parenFree u = true) : balAux (u ++ v) d = balAux v d := by
  induction u with
  | nil => rfl
  | cons c cs ih =>
    obtain ⟨⟨h1, h2⟩, h3⟩ := parenFree_cons.mp hu
    rw [List.cons_append, balAux, if_neg h1, if_neg h2]
    exact ih h3

theorem balAux_parenFree {u : List Char} (hu : parenFree u = true) :
    balAux u 0 = true := by
  have := balAux_parenFree_append [] 0 hu
  rw [List.append_nil] at this
  rw [this]
  rfl

/-- A pending open group must close: peel the closing parenthesis. -/
theorem nn_true_decomp : ∀ (t : List Char), nn t true = true →
    ∃ b c, t = b ++ ')' :: c ∧ parenFree b = true ∧ nn c false = true := by
  intro t
  induction t with
  | nil => intro h; exact absurd h (by decide)
  | cons ch cs ih =>
    intro h
    rw [nn] at h
    by_cases h1 : ch = '('
    · rw [if_pos h1] at h
      simp at h
    · rw [if_neg h1] at h
      by_cases h2 : ch = ')'
      · rw [if_pos h2] at h
        simp only [Bool.true_and] at h
        exact ⟨[], cs, by rw [h2]; rfl, rfl, h⟩
      · rw [if_neg h2] at h
        obtain ⟨b, c, rfl, hb, hc⟩ := ih h
        exact ⟨ch :: b, c, rfl, parenFree_cons.mpr ⟨⟨h1, h2⟩, hb⟩, hc⟩

/-- A non-nested string is parenthesis-free or opens exactly one
group, closed before the (still non-nested) remainder. -/
theorem nn_false_decomp : ∀ (s : List Char), nn s false = true →
    parenFree s = true ∨
    ∃ a b c, s = a ++ '(' :: (b ++ ')' :: c) ∧ parenFree a = true ∧
      parenFree b = true ∧ nn c false = true := by
  intro s
  induction s with
  | nil => intro _; left; rfl
  | cons ch cs ih =>
    intro h
    rw [nn] at h
    by_cases h1 : ch = '('
    · rw [if_pos h1] at h
      simp only [Bool.not_false, Bool.true_and] at h
      obtain ⟨b, c, rfl, hb, hc⟩ := nn_true_decomp cs h
      right
      exact ⟨[], b, c, by rw [h1]; rfl, rfl, hb, hc⟩
    · rw [if_neg h1] at h
      by_cases h2 : ch = ')'
      · rw [if_pos h2] at h
        simp at h
      · rw [if_neg h2] at h
        rcases ih h with hpf | ⟨a, b, c, rfl, ha, hb, hc⟩
        · left
          exact parenFree_cons.mpr ⟨⟨h1, h2⟩, hpf⟩
        · right
          exact ⟨ch :: a, b, c, rfl, parenFree_cons.mpr ⟨⟨h1, h2⟩, ha⟩, hb, hc⟩

theorem parenFree_drop {s : List Char} (h : parenFree s = true) (m : Nat) :
    parenFree (s.drop m) = true := by
  rw [parenFree, List.all_eq_true] at h ⊢
  intro c hc
  exact h c (List.mem_of_mem_drop hc)

/-- Reassociation of the non-nested decomposition: prefix before the
remainder `c`. -/
theorem dec_assoc (a b c : List Char) :
    a ++ '(' :: (b ++ ')' :: c) = (a ++ '(' :: (b ++ [')'])) ++ c := by
  simp [List.append_assoc]

theorem dec_pre_length (a b : List Char) :
    (a ++ '(' :: (b ++ [')'])).length = a.length + 1 + b.length + 1 := by
  simp only [List.length_append, List.length_cons, List.length_nil]
  omega

theorem dec_length (a b c : List Char) :
    (a ++ '(' :: (b ++ ')' :: c)).length =
      a.length + 1 + b.length + 1 + c.length := by
  simp only [List.length_append, List.length_cons]
  omega

theorem dec_get_open (a b c : List Char) :
    (a ++ '(' :: (b ++ ')' :: c)).get? a.length = some '(' := by
  rw [List.get?_append_right (Nat.le_refl _), Nat.sub_self]
  rfl

theorem dec_get_close (a b c : List Char) :
    (a ++ '(' :: (b ++ ')' :: c)).get? (a.length + 1 + b.length) =
      some ')' := by
  have hview : a ++ '(' :: (b ++ ')' :: c) = (a ++ '(' :: b) ++ ')' :: c := by
    simp [List.append_assoc]
  have hlen : (a ++ '(' :: b).length = a.length + 1 + b.length := by
    simp only [List.length_append, List.length_cons]
    omega
  rw [hview, List.get?_append_right (le_of_eq hlen), hlen, Nat.sub_self]
  rfl

theorem dec_get_b (a b c : List Char) (j : Nat) (h1 : a.length < j)
    (h2 : j < a.length + 1 + b.length) :
    (a ++ '(' :: (b ++ ')' :: c)).get? j = b.get? (j - a.length - 1) := by
  have hview : a ++ '(' :: (b ++ ')' :: c) = (a ++ ['(']) ++ (b ++ ')' :: c) := by
    simp [List.append_assoc]
  have hlen : (a ++ ['(']).length = a.length + 1 := by simp
  rw [hview, List.get?_append_right (by rw [hlen]; omega), hlen,
    List.get?_append (by omega)]
  congr 1

theorem dec_get_c (a b c : List Char) (i : Nat)
    (hi : a.length + 1 + b.length < i) :
    (a ++ '(' :: (b ++ ')' :: c)).get? i =
      c.get? (i - (a.length + 1 + b.length + 1)) := by
  rw [dec_assoc, List.get?_append_right (by rw [dec_pre_length]; omega),
    dec_pre_length]

theorem dec_drop_a (a b c : List Char) (i : Nat) (hi : i + 1 ≤ a.length) :
    (a ++ '(' :: (b ++ ')' :: c)).drop (i + 1) =
      a.drop (i + 1) ++ '(' :: (b ++ ')' :: c) := by
  rw [List.drop_append_eq_append_drop, Nat.sub_eq_zero_of_le hi,
    List.drop_zero]

theorem dec_drop_b (a b c : List Char) (i : Nat) (hp : a.length ≤ i)
    (hq : i < a.length + 1 + b.length) :
    (a ++ '(' :: (b ++ ')' :: c)).drop (i + 1) =
      b.drop (i - a.length) ++ ')' :: c := by
  have hview : a ++ '(' :: (b ++ ')' :: c) = (a ++ ['(']) ++ (b ++ ')' :: c) := by
    simp [List.append_assoc]
  have hlen : (a ++ ['(']).length = a.length + 1 := by simp
  rw [hview, List.drop_append_eq_append_drop,
    List.drop_eq_nil_of_le (by rw [hlen]; omega), List.nil_append, hlen,
    List.drop_append_eq_append_drop]
  have hm : i + 1 - (a.length + 1) = i - a.length := by omega
  have hz : i + 1 - (a.length + 1) - b.length = 0 := by omega
  rw [hz, List.drop_zero, hm]

theorem dec_drop_c (a b c : List Char) (i : Nat)
    (hi : a.length + 1 + b.length < i) :
    (a ++ '(' :: (b ++ ')' :: c)).drop (i + 1) =
      c.drop (i - (a.length + 1 + b.length + 1) + 1) := by
  rw [dec_assoc, List.drop_append_eq_append_drop,
    List.drop_eq_nil_of_le (by rw [dec_pre_length]; omega), List.nil_append,
    dec_pre_length]
  congr 1
  omega

theorem dec_take_c (a b c : List Char) (k : Nat)
    (hk : a.length + 1 + b.length + 1 ≤ k) :
    (a ++ '(' :: (b ++ ')' :: c)).take k =
      (a ++ '(' :: (b ++ [')'])) ++ c.take (k - (a.length + 1 + b.length + 1)) := by
  rw [dec_assoc, List.take_append_eq_append_take,
    List.take_of_length_le (by rw [dec_pre_length]; omega), dec_pre_length]

/-- Matching pairs strictly after the decomposed group are matching
pairs of the remainder. -/
theorem dec_matching_high (a b c : List Char) (j k : Nat)
    (hj : a.length + 1 + b.length < j) (hk : a.length + 1 + b.length < k) :
    matchingPairB (a ++ '(' :: (b ++ ')' :: c)) j k =
      matchingPairB c (j - (a.length + 1 + b.length + 1))
        (k - (a.length + 1 + b.length + 1)) := by
  have hd : decide (j < k) =
      decide (j - (a.length + 1 + b.length + 1) <
        k - (a.length + 1 + b.length + 1)) :=
    decide_eq_decide.mpr (by omega)
  rw [matchingPairB, matchingPairB, dec_get_c a b c j hj, dec_get_c a b c k hk,
    hd, dec_take_c a b c k (by omega), List.drop_append_eq_append_drop,
    List.drop_eq_nil_of_le (by rw [dec_pre_length]; omega), List.nil_append,
    dec_pre_length]
  have he : j + 1 - (a.length + 1 + b.length + 1) =
      j - (a.length + 1 + b.length + 1) + 1 := by omega
  rw [he]

/-- The decomposed group's opening parenthesis matches nothing beyond
its own closing parenthesis. -/
theorem dec_matching_p_high (a b c : List Char) (hb : parenFree b = true)
    (k : Nat) (hk : a.length + 1 + b.length < k) :
    matchingPairB (a ++ '(' :: (b ++ ')' :: c)) a.length k = false := by
  rw [matchingPairB]
  have hbal : balAux (((a ++ '(' :: (b ++ ')' :: c)).take k).drop
      (a.length + 1)) 0 = false := by
    rw [dec_take_c a b c k (by omega)]
    have hview : a ++ '(' :: (b ++ [')']) = (a ++ ['(']) ++ (b ++ [')']) := by
      simp [List.append_assoc]
    have hlen : (a ++ ['(']).length = a.length + 1 := by simp
    rw [hview, List.append_assoc, List.drop_append_eq_append_drop,
      List.drop_eq_nil_of_le (le_of_eq hlen), List.nil_append, hlen,
      Nat.sub_self, List.drop_zero, List.append_assoc,
      balAux_parenFree_append _ _ hb]
    rfl
  rw [hbal]
  simp

/-- Any opening parenthesis of the decomposition sits at the group's
opening position or strictly after the group. -/
theorem dec_open_pos (a b c : List Char) (ha : parenFree a = true)
    (hb : parenFree b = true) (j : Nat)
    (hj : (a ++ '(' :: (b ++ ')' :: c)).get? j = some '(') :
    j = a.length ∨ a.length + 1 + b.length < j := by
  rcases lt_trichotomy j a.length with h | h | h
  · exfalso
    rw [List.get?_append h] at hj
    exact (parenFree_not_open ha (List.get?_mem hj)).1 rfl
  · exact Or.inl h
  · rcases lt_trichotomy j (a.length + 1 + b.length) with h2 | h2 | h2
    · exfalso
      rw [dec_get_b a b c j h h2] at hj
      exact (parenFree_not_open hb (List.get?_mem hj)).1 rfl
    · exfalso
      rw [h2, dec_get_close a b c] at hj
      exact absurd (Option.some.inj hj) (by decide)
    · exact Or.inr h2

theorem dec_enclosed_low (a b c : List Char) (ha : parenFree a = true)
    (i : Nat) (hi : i < a.length) :
    enclosedB (a ++ '(' :: (b ++ ')' :: c)) i = false := by
  by_contra hx
  rw [Bool.not_eq_false, enclosedB_iff] at hx
  obtain ⟨j, k, hji, hik, hklen, hm⟩ := hx
  rw [matchingPairB] at hm
  simp only [Bool.and_eq_true, beq_iff_eq] at hm
  have hget := hm.1.1.2
  rw [List.get?_append (by omega)] at hget
  exact (parenFree_not_open ha (List.get?_mem hget)).1 rfl

theorem dec_enclosed_mid (a b c : List Char) (hb : parenFree b = true)
    (i : Nat) (h1 : a.length < i) (h2 : i < a.length + 1 + b.length) :
    enclosedB (a ++ '(' :: (b ++ ')' :: c)) i = true := by
  rw [enclosedB_iff]
  refine ⟨a.length, a.length + 1 + b.length, h1, h2, ?_, ?_⟩
  · rw [dec_length]
    omega
  · rw [matchingPairB, dec_get_open, dec_get_close]
    have hview : a ++ '(' :: (b ++ ')' :: c) = (a ++ '(' :: b) ++ ')' :: c := by
      simp [List.append_assoc]
    have hlen : (a ++ '(' :: b).length = a.length + 1 + b.length := by
      simp only [List.length_append, List.length_cons]
      omega
    have hslice : (((a ++ '(' :: (b ++ ')' :: c)).take
        (a.length + 1 + b.length)).drop (a.length + 1)) = b := by
      rw [hview, List.take_left' hlen]
      have hview2 : a ++ '(' :: b = (a ++ ['(']) ++ b := by
        simp [List.append_assoc]
      have hlen2 : (a ++ ['(']).length = a.length + 1 := by simp
      rw [hview2, List.drop_left' hlen2]
    rw [hslice, balAux_parenFree hb]
    simp only [beq_self_eq_true, Bool.and_true, Bool.true_and,
      decide_eq_true_eq]
    omega

theorem dec_enclosed_high (a b c : List Char) (ha : parenFree a = true)
    (hb : parenFree b = true) (i : Nat)
    (hi : a.length + 1 + b.length < i) :
    enclosedB (a ++ '(' :: (b ++ ')' :: c)) i =
      enclosedB c (i - (a.length + 1 + b.length + 1)) := by
  rw [Bool.eq_iff_iff, enclosedB_iff, enclosedB_iff]
  constructor
  · intro ⟨j, k, hji, hik, hklen, hm⟩
    have hopen : (a ++ '(' :: (b ++ ')' :: c)).get? j = some '(' := by
      rw [matchingPairB] at hm
      simp only [Bool.and_eq_true, beq_iff_eq] at hm
      exact hm.1.1.2
    rcases dec_open_pos a b c ha hb j hopen with rfl | hjq
    · exfalso
      have hkq : a.length + 1 + b.length < k := by omega
      rw [dec_matching_p_high a b c hb k hkq] at hm
      exact Bool.false_ne_true hm
    · refine ⟨j - (a.length + 1 + b.length + 1),
        k - (a.length + 1 + b.length + 1), by omega, by omega, ?_, ?_⟩
      · rw [dec_length] at hklen
        omega
      · rw [← dec_matching_high a b c j k hjq (by omega)]
        exact hm
  · intro ⟨j, k, hji, hik, hklen, hm⟩
    refine ⟨j + (a.length + 1 + b.length + 1),
      k + (a.length + 1 + b.length + 1), by omega, by omega, ?_, ?_⟩
    · rw [dec_length]
      omega
    · rw [dec_matching_high a b c _ _ (by omega) (by omega),
        Nat.add_sub_cancel, Nat.add_sub_cancel]
      exact hm

/-- On non-nested strings the regex delimiter decision coincides with
the spec's not-enclosed-in-a-matching-pair decision, at every
position. -/
theorem delim_agree : ∀ (n : Nat) (s : List Char), s.length ≤ n →
    nonNested s = true → ∀ i, codeDelim s i = specDelim s i := by
  intro n
  induction n with
  | zero =>
    intro s hs _ i
    have : s = [] := List.eq_nil_of_length_eq_zero (Nat.le_zero.mp hs)
    subst this
    rfl
  | succ n ih =>
    intro s hs hnn i
    rcases nn_false_decomp s hnn with hpf | ⟨a, b, c, rfl, ha, hb, hc⟩
    · have h1 : lookaheadCloses (s.drop (i + 1)) = false :=
        lookahead_parenFree (parenFree_drop hpf (i + 1))
      have h2 : enclosedB s i = false := by
        by_contra hx
        rw [Bool.not_eq_false, enclosedB_iff] at hx
        obtain ⟨j, k, hji, hik, hklen, hm⟩ := hx
        rw [matchingPairB] at hm
        simp only [Bool.and_eq_true, beq_iff_eq] at hm
        exact (parenFree_not_open hpf (List.get?_mem hm.1.1.2)).1 rfl
      rw [codeDelim, specDelim, h1, h2]
    · rcases lt_trichotomy i a.length with hip | hip | hip
      · have h1 : lookaheadCloses
            ((a ++ '(' :: (b ++ ')' :: c)).drop (i + 1)) = false := by
          rw [dec_drop_a a b c i (by omega)]
          exact lookahead_append_open _ (parenFree_drop ha (i + 1))
        have h2 := dec_enclosed_low a b c ha i hip
        rw [codeDelim, specDelim, h1, h2]
      · subst hip
        rw [codeDelim, specDelim, dec_get_open a b c]
        rfl
      · rcases lt_trichotomy i (a.length + 1 + b.length) with hiq | hiq | hiq
        · have h1 : lookaheadCloses
              ((a ++ '(' :: (b ++ ')' :: c)).drop (i + 1)) = true := by
            rw [dec_drop_b a b c i (by omega) hiq]
            exact lookahead_append_close _ (parenFree_drop hb (i - a.length))
          have h2 := dec_enclosed_mid a b c hb i hip hiq
          rw [codeDelim, specDelim, h1, h2]
        · subst hiq
          rw [codeDelim, specDelim, dec_get_close a b c]
          rfl
        · have h1 := dec_drop_c a b c i hiq
          have h2 := dec_get_c a b c i hiq
          have h3 := dec_enclosed_high a b c ha hb i hiq
          have hclen : c.length ≤ n := by
            have := dec_length a b c
            omega
          have h4 := ih c hclen hc (i - (a.length + 1 + b.length + 1))
          rw [codeDelim, specDelim] at h4
          rw [codeDelim, specDelim, h1, h2, h3]
          exact h4

/-- C7 counterexample: on `"(a, (b), c)"` the first comma *is* enclosed
within a matching pair (positions 0 and 10), yet the regex splitter
splits there (its one-level lookahead sees the inner `'('` first), so
it does not split on exactly the non-enclosed commas. -/
theorem C7_splitter_cex :
    pySplitter "(a, (b), c)".data = ["(a".data, "(b), c)".data] ∧
    specSplitter "(a, (b), c)".data = ["(a, (b), c)".data] ∧
    pySplitter "(a, (b), c)".data ≠ specSplitter "(a, (b), c)".data ∧
    matchingPairB "(a, (b), c)".data 0 10 = true ∧
    "(a, (b), c)".data.get? 2 = some ',' := by
  exact ⟨by decide, by decide, by decide, by decide, by decide⟩

/-- C7 amended: the splitter splits on exactly those commas after which
the first parenthesis character is not a `')'` (the regex lookahead);
on every line whose parentheses are balanced and non-nested this
coincides with splitting on exactly the commas not enclosed within a
matching pair, it trims whitespace from each token and discards empty
tokens, and in particular `"p, t, k (ʔ), m"` yields
`["p", "t", "k (ʔ)", "m"]` under both readings. -/
theorem C7_splitter (s : List Char) (hnn : nonNested s = true) :
    pySplitter s = specSplitter s ∧
    pySplitter "p, t, k (ʔ), m".data =
      ["p".data, "t".data, "k (ʔ)".data, "m".data] ∧
    specSplitter "p, t, k (ʔ), m".data =
      ["p".data, "t".data, "k (ʔ)".data, "m".data] := by
  refine ⟨?_, by decide, by decide⟩
  rw [pySplitter, specSplitter, splitBy, splitBy,
    splitGo_congr (codeDelim s) (specDelim s) s 0 []
      (fun off _ => delim_agree s.length s (Nat.le_refl _) hnn (0 + off))]

/-- C7 witness: a balanced, non-nested line on which both splitters
agree. -/
theorem C7_splitter_witness :
    nonNested "a, (b, c), d".data = true ∧
    pySplitter "a, (b, c), d".data = specSplitter "a, (b, c), d".data :=
  ⟨by decide, (C7_splitter "a, (b, c), d".data (by decide)).1⟩
